import Mathlib

/-!
# Verification of the Apriori market-basket pipeline (`src/app.py`)

Shallow embedding of the analytical core of the repository: the frequent
itemset miner (`apriori`), the association-rule generator (`generate_rules`),
the rule filter (`rules_from_freq`), the item scorers
(`compute_item_scores` and friends) and the five-tier builder (`build_tiers`).

Modelling conventions:
* Python `frozenset[str]` itemsets are represented canonically as strictly
  sorted (hence duplicate-free) `List String`; two frozensets are equal iff
  their canonical lists are equal.  `tuple(sorted(s))` is the identity on a
  canonical list.
* Python `dict` / `defaultdict` values are association lists
  (`List (κ × α)`) in insertion order: `d[k] = v` updates the first entry
  in place or appends, `defaultdict` increments (`d[k] += v`) likewise, and
  iteration is list order.  Python dict iteration order is insertion order,
  which these association lists reproduce exactly.
* Python `float` arithmetic is modelled exactly over `ℚ`.
* Iteration order over a Python `set` (hash order, not observable through
  any claim checked here) is modelled by a fixed deterministic order.
-/

/-! ## Association lists with Python dict semantics -/

/-- Items are product-name strings. -/
abbrev Item := String

/-- One basket (transaction): the items of one invoice. -/
abbrev Basket := List Item

/-- A `frozenset` of items in canonical form: strictly sorted list. -/
abbrev ItemSet := List Item

/-- Insertion-ordered dictionary, as Python `dict`. -/
abbrev PyDict (κ α : Type) := List (κ × α)

/-- First-match lookup, `d.get k` / `d[k]`. -/
def alookup {κ α : Type} [DecidableEq κ] : PyDict κ α → κ → Option α
  | [], _ => none
  | p :: rest, k => if p.1 = k then some p.2 else alookup rest k

/-- `d.get(k, v)`: lookup with default. -/
def lookupD {κ α : Type} [DecidableEq κ] (d : PyDict κ α) (k : κ) (v : α) : α :=
  (alookup d k).getD v

/-- `defaultdict` increment `d[k] += v` (missing key starts at zero, so the
first increment simply stores `v`).  The updated entry keeps its position,
a fresh key is appended, exactly as in CPython. -/
def bump {κ α : Type} [DecidableEq κ] [Add α] : PyDict κ α → κ → α → PyDict κ α
  | [], k, v => [(k, v)]
  | p :: rest, k, v => if p.1 = k then (p.1, p.2 + v) :: rest else p :: bump rest k v

/-- Plain dict assignment `d[k] = v`: replace in place or append. -/
def setKey {κ α : Type} [DecidableEq κ] : PyDict κ α → κ → α → PyDict κ α
  | [], k, v => [(k, v)]
  | p :: rest, k, v => if p.1 = k then (k, v) :: rest else p :: setKey rest k v

/-- Python `d.update(l)`: assign every entry of `l` into `d` in order. -/
def dictUpdate {κ α : Type} [DecidableEq κ] (d : PyDict κ α) (l : PyDict κ α) : PyDict κ α :=
  l.foldl (fun d p => setKey d p.1 p.2) d

/-- The key list of a dictionary, in iteration order. -/
def keys {κ α : Type} (d : PyDict κ α) : List κ := d.map Prod.fst

/-- A dictionary has no repeated key (true of every real Python dict). -/
abbrev NodupKeys {κ α : Type} (d : PyDict κ α) : Prop := (keys d).Nodup

/-! ## Canonical itemsets -/

/-- `sorted(...)` on strings: ascending, stable. -/
def sortStr (l : List Item) : List Item := List.insertionSort (· ≤ ·) l

/-- Canonical form of a finite set of strings given by an enumerating list. -/
def canonIS (l : List Item) : ItemSet := sortStr l.dedup

/-- The canonical-representation invariant: strictly sorted. -/
abbrev IsCanon (s : ItemSet) : Prop := List.Sorted (· < ·) s

/-- `frozenset.union`, in canonical form. -/
def unionIS (a b : ItemSet) : ItemSet := canonIS (a ++ b)

/-- `s.issubset(t)`. -/
def subsetIS (s : List Item) (t : List Item) : Bool := s.all (fun i => decide (i ∈ t))

/-- Number of baskets that are supersets of `s` (the absolute support count). -/
def countIn (s : ItemSet) (transactions : List Basket) : ℕ :=
  transactions.countP (fun t => subsetIS s t)

/-! ## The itemset miner (`apriori`, `src/app.py` lines 102–145) -/

/-- Python `int(q)`: truncation toward zero. -/
def pyInt (q : ℚ) : ℤ := if 0 ≤ q then ⌊q⌋ else ⌈q⌉

/-- `min_count = max(1, int(min_support * n))`. -/
def minCount (min_support : ℚ) (n : ℕ) : ℕ := max 1 (pyInt (min_support * n)).toNat

/-- The 1-itemset counting pass: `for t in transactions: for i in t:
item_counts[frozenset([i])] += 1` (iteration over the set `t` visits each
distinct item once). -/
def itemCounts (transactions : List Basket) : PyDict ItemSet ℕ :=
  transactions.foldl (fun d t => t.dedup.foldl (fun d i => bump d [i] 1) d) []

/-- Candidate k-itemsets: `{i1 | i2 for i1 in L for i2 in L if len(i1|i2)==k}`
(a set, modelled as the duplicate-free list of pairwise unions). -/
def genCandidates (ks : List ItemSet) (k : ℕ) : List ItemSet :=
  ((ks.flatMap (fun i1 => ks.map (fun i2 => unionIS i1 i2))).filter
    (fun c => decide (c.length = k))).dedup

/-- Exact counting of candidates against every basket:
`for t in transactions: for c in candidates: if c.issubset(t): next_counts[c] += 1`. -/
def countCandidates (candidates : List ItemSet) (transactions : List Basket) :
    PyDict ItemSet ℕ :=
  transactions.foldl
    (fun d t => candidates.foldl (fun d c => if subsetIS c t then bump d c 1 else d) d) []

/-- Largest basket size; bounds the size of any itemset contained in a basket,
so it bounds the number of `while` iterations of `apriori`. -/
def maxLen (transactions : List Basket) : ℕ :=
  transactions.foldr (fun t m => max t.length m) 0

/-- The `while L:` loop of `apriori`.  The `fuel` argument only bounds the
iteration count so the definition is structural; `apriori` supplies
`maxLen transactions + 1` fuel, which is never exhausted because a frequent
k-itemset needs `count ≥ min_count ≥ 1`, hence fits inside some basket, so
k never exceeds the largest basket size. -/
def aprioriLoop (transactions : List Basket) (n min_count : ℕ) :
    PyDict ItemSet ℚ → PyDict ItemSet ℕ → PyDict ItemSet ℕ → ℕ → ℕ →
    PyDict ItemSet ℚ × PyDict ItemSet ℕ
  | freq, abs_counts, _, _, 0 => (freq, abs_counts)
  | freq, abs_counts, L, k, fuel + 1 =>
    if L.isEmpty then (freq, abs_counts)
    else
      let candidates := genCandidates (keys L) k
      let next_counts := countCandidates candidates transactions
      let L2 := next_counts.filter (fun p => decide (min_count ≤ p.2))
      if L2.isEmpty then (freq, abs_counts)
      else
        aprioriLoop transactions n min_count
          (dictUpdate freq (L2.map (fun p => (p.1, (p.2 : ℚ) / n))))
          (dictUpdate abs_counts L2) L2 (k + 1) fuel

/-- `apriori(transactions, min_support)`: returns the relative-support map
and the absolute-count map of all frequent itemsets. -/
def apriori (transactions : List Basket) (min_support : ℚ) :
    PyDict ItemSet ℚ × PyDict ItemSet ℕ :=
  let n := transactions.length
  let min_count := minCount min_support n
  let item_counts := itemCounts transactions
  let abs_counts := item_counts.filter (fun p => decide (min_count ≤ p.2))
  let freq : PyDict ItemSet ℚ := abs_counts.map (fun p => (p.1, (p.2 : ℚ) / n))
  aprioriLoop transactions n min_count freq abs_counts abs_counts 2
    (maxLen transactions + 1)

/-! ## Parameters (`AprioriParams`, lines 69–75) and rules -/

/-- `AprioriParams` with the source's defaults
(`0.01`, `0.30`, `1.5`, `0.002`, `0.01`). -/
structure AprioriParams where
  min_support : ℚ := 1 / 100
  min_confidence : ℚ := 3 / 10
  min_lift : ℚ := 3 / 2
  longtail_min_support : ℚ := 1 / 500
  longtail_max_support : ℚ := 1 / 100
deriving DecidableEq

/-- One emitted association rule: the tuple
`(tuple(sorted(A)), tuple(sorted(B)), sup_xy, conf, lift)`. -/
structure RuleT where
  ant : List Item
  con : List Item
  sup : ℚ
  conf : ℚ
  lift : ℚ
deriving DecidableEq

/-! ## The rule generator (`generate_rules`, lines 148–178) -/

/-- `generate_rules(freq, abs_counts, min_conf, min_lift, filter_exact_2_only)`.
`abs_counts` is accepted and unused, exactly as in the source.  The
antecedents of one itemset are enumerated as `itertools.combinations` does:
all sublists of the canonical list, for each size `r` in `range(1, len)`. -/
def generateRules (freq : PyDict ItemSet ℚ) (abs_counts : PyDict ItemSet ℕ)
    (min_conf min_lift : ℚ) (filter_exact_2_only : Bool) : List RuleT :=
  freq.foldl (fun rules p =>
    if p.1.length < 2 then rules
    else if filter_exact_2_only ∧ p.1.length ≠ 2 then rules
    else
      (List.range' 1 (p.1.length - 1)).foldl (fun rules r =>
        (p.1.sublistsLen r).foldl (fun rules A =>
          let B := p.1.filter (fun x => decide (x ∉ A))
          let sup_x := lookupD freq A 0
          let sup_y := lookupD freq B 0
          if sup_x = 0 ∨ sup_y = 0 then rules
          else
            let conf := p.2 / sup_x
            let lift := p.2 / (sup_x * sup_y)
            if min_conf ≤ conf ∧ min_lift ≤ lift then
              rules ++ [⟨sortStr A, sortStr B, p.2, conf, lift⟩]
            else rules) rules) rules) []

/-! ## The rule filter (`rules_from_freq`, lines 312–344).
The pandas `DataFrame` built from the filtered list is presentation only;
the model returns the `filtered` list the caller actually consumes. -/

/-- `rules_from_freq(freq, abs_counts, params, potential)`. -/
def rulesFromFreq (freq : PyDict ItemSet ℚ) (abs_counts : PyDict ItemSet ℕ)
    (params : AprioriParams) (potential : Bool) : List RuleT :=
  let min_sup := if potential then params.longtail_min_support else params.min_support
  let max_sup := if potential then params.longtail_max_support else 1
  let filter_2 := !potential
  let rules := generateRules freq abs_counts params.min_confidence params.min_lift filter_2
  rules.filter (fun r => decide (min_sup ≤ r.sup ∧ r.sup ≤ max_sup))

/-! ## Item scoring and the tier builder (lines 185–309) -/

/-- `compute_item_support(freq)`: supports of the single items. -/
def computeItemSupport (freq : PyDict ItemSet ℚ) : PyDict Item ℚ :=
  freq.foldl (fun support_1 p =>
    match p.1 with
    | [item] => setKey support_1 item p.2
    | _ => support_1) []

/-- `sup * conf * lift`, the per-rule strength. -/
def ruleScore (r : RuleT) : ℚ := r.sup * r.conf * r.lift

/-- `set(A) | set(B)`: the distinct items of a rule. -/
def ruleItems (r : RuleT) : List Item := (r.ant ++ r.con).dedup

/-- `compute_item_scores(rules)`: additive accumulation of the rule score
onto every item of the rule. -/
def computeItemScores (rules : List RuleT) : PyDict Item ℚ :=
  rules.foldl (fun scores r =>
    (ruleItems r).foldl (fun scores i => bump scores i (ruleScore r)) scores) []

/-- `sorted(d.items(), key=lambda x: x[1], reverse=True)[:N]` followed by
`[name for name, _ in ...]`: stable descending sort by score, truncate,
project the names.  (CPython's `sorted(..., reverse=True)` is stable: equal
keys keep insertion order; insertion sort with `q.2 ≤ p.2` does the same.) -/
def takeTop (N : ℕ) (d : PyDict Item ℚ) : List Item :=
  ((List.insertionSort (fun p q : Item × ℚ => q.2 ≤ p.2) d).take N).map Prod.fst

/-- Tier-2 accumulation: rules touching a Tier-1 item push their score onto
the rule's other items. -/
def partnerScores (rules_all : List RuleT) (tier1_items : List Item) : PyDict Item ℚ :=
  rules_all.foldl (fun d r =>
    if (ruleItems r).any (fun i => decide (i ∈ tier1_items)) then
      ((ruleItems r).filter (fun i => decide (i ∉ tier1_items))).foldl
        (fun d i => bump d i (ruleScore r)) d
    else d) []

/-- Tier-5 accumulation: rule scores pushed onto consequent members only
(`for item in B`, the tuple itself, not a set). -/
def consequentScores (rules_all : List RuleT) : PyDict Item ℚ :=
  rules_all.foldl (fun d r => r.con.foldl (fun d i => bump d i (ruleScore r)) d) []

/-- The five tier lists (the dict returned by `build_tiers`). -/
structure Tiers where
  tier1 : List Item
  tier2 : List Item
  tier3 : List Item
  tier4 : List Item
  tier5 : List Item
deriving DecidableEq

/-- `build_tiers(rules_main, rules_potential, freq_main, freq_potential,
params)` (lines 217–309).  `freq_combined`/`item_support` are computed and,
as in the source, used by nothing downstream; `params` is likewise unused. -/
def buildTiers (rules_main rules_potential : List RuleT)
    (freq_main freq_potential : PyDict ItemSet ℚ) (params : AprioriParams) : Tiers :=
  let freq_combined := dictUpdate (dictUpdate [] freq_potential) freq_main
  let _item_support := computeItemSupport freq_combined
  let _params := params
  let rules_all := rules_main ++ rules_potential
  let item_scores_all := computeItemScores rules_all
  let tier1_items := takeTop 3 item_scores_all
  let partner_scores := partnerScores rules_all tier1_items
  let tier2_items := takeTop 5 partner_scores
  let exclude_tier12 := tier1_items ++ tier2_items
  let tier3_candidates := item_scores_all.filter (fun p => decide (p.1 ∉ exclude_tier12))
  let tier3_items := takeTop 5 tier3_candidates
  let pot_scores := computeItemScores rules_potential
  let exclude_tier123 := exclude_tier12 ++ tier3_items
  let tier4_candidates := pot_scores.filter (fun p => decide (p.1 ∉ exclude_tier123))
  let tier4_items := takeTop 5 tier4_candidates
  let consequent_scores := consequentScores rules_all
  let exclude_prev := exclude_tier123 ++ tier4_items
  let tier5_candidates := consequent_scores.filter (fun p => decide (p.1 ∉ exclude_prev))
  let tier5_items := takeTop 5 tier5_candidates
  ⟨tier1_items, tier2_items, tier3_items, tier4_items, tier5_items⟩

/-! ## Proof-side helper definitions -/

/-- Adding `m` observed baskets to an optional counter (used to state the
exact behaviour of the counting folds). -/
def addCnt (o : Option ℕ) (m : ℕ) : Option ℕ :=
  if m = 0 then o else some (o.getD 0 + m)

/-- The rules one antecedent choice `A` of one frequent itemset entry
contributes in `generate_rules`: the loop body of the innermost `for`,
as a zero- or one-element list. -/
def splitRule (freq : PyDict ItemSet ℚ) (min_conf min_lift : ℚ)
    (p : ItemSet × ℚ) (A : List Item) : List RuleT :=
  let B := p.1.filter (fun x => decide (x ∉ A))
  let sup_x := lookupD freq A 0
  let sup_y := lookupD freq B 0
  if sup_x = 0 ∨ sup_y = 0 then []
  else
    let conf := p.2 / sup_x
    let lift := p.2 / (sup_x * sup_y)
    if min_conf ≤ conf ∧ min_lift ≤ lift then
      [⟨sortStr A, sortStr B, p.2, conf, lift⟩]
    else []

/-- All rules one frequent itemset entry contributes in `generate_rules`. -/
def rulesOfEntry (freq : PyDict ItemSet ℚ) (min_conf min_lift : ℚ)
    (filter_exact_2_only : Bool) (p : ItemSet × ℚ) : List RuleT :=
  if p.1.length < 2 then []
  else if filter_exact_2_only ∧ p.1.length ≠ 2 then []
  else (List.range' 1 (p.1.length - 1)).flatMap (fun r =>
    (p.1.sublistsLen r).flatMap (splitRule freq min_conf min_lift p))

/-! ## Dictionary lemmas -/

section DictLemmas

variable {κ α : Type} [DecidableEq κ]

theorem foldl_inv {δ β : Type _} {P : δ → Prop} {f : δ → β → δ}
    (l : List β) (d : δ) (h : ∀ d b, b ∈ l → P d → P (f d b)) (hd : P d) :
    P (l.foldl f d) := by
  induction l generalizing d with
  | nil => exact hd
  | cons b l ih =>
    exact ih (f d b) (fun d' b' hb' => h d' b' (List.mem_cons_of_mem _ hb'))
      (h d b (List.mem_cons_self _ _) hd)

@[simp] theorem alookup_nil {k : κ} : alookup ([] : PyDict κ α) k = none := rfl

theorem alookup_bump_of_ne [Add α] {d : PyDict κ α} {k k' : κ} {v : α} (h : k' ≠ k) :
    alookup (bump d k v) k' = alookup d k' := by
  have hkk : ¬ k = k' := fun he => h he.symm
  induction d with
  | nil => simp [bump, alookup, hkk]
  | cons p rest ih =>
    by_cases hpk : p.1 = k
    · rw [bump, if_pos hpk]
      rw [alookup, alookup, hpk]
      simp [hkk]
    · rw [bump, if_neg hpk, alookup, alookup]
      by_cases hpk' : p.1 = k' <;> simp [hpk', ih]

theorem alookup_bump_self [Add α] {d : PyDict κ α} {k : κ} {v : α} :
    alookup (bump d k v) k = some ((alookup d k).elim v (· + v)) := by
  induction d with
  | nil => simp [bump, alookup]
  | cons p rest ih =>
    by_cases hpk : p.1 = k
    · simp [bump, alookup, hpk]
    · simp [bump, alookup, hpk, ih]

theorem mem_keys_iff {d : PyDict κ α} {k : κ} :
    k ∈ keys d ↔ ∃ v, (k, v) ∈ d := by
  constructor
  · intro h
    rcases List.mem_map.1 h with ⟨p, hp, he⟩
    rcases p with ⟨k', v⟩
    simp only at he
    subst he
    exact ⟨v, hp⟩
  · rintro ⟨v, hv⟩
    exact List.mem_map.2 ⟨(k, v), hv, rfl⟩

theorem keys_bump [Add α] (d : PyDict κ α) (k : κ) (v : α) :
    keys (bump d k v) = if k ∈ keys d then keys d else keys d ++ [k] := by
  induction d with
  | nil => simp [bump, keys]
  | cons p rest ih =>
    by_cases hpk : p.1 = k
    · have : k ∈ keys (p :: rest) := by simp [keys, hpk.symm]
      simp [bump, keys, hpk, this]
    · have hmem : k ∈ keys (p :: rest) ↔ k ∈ keys rest := by
        simp only [keys, List.map_cons, List.mem_cons]
        constructor
        · rintro (he | h)
          · exact absurd he.symm hpk
          · exact h
        · exact Or.inr
      rw [bump, if_neg hpk]
      by_cases hk : k ∈ keys rest
      · rw [if_pos (hmem.2 hk)]
        have := ih
        rw [if_pos hk] at this
        simp [keys] at this ⊢
        exact this
      · rw [if_neg (fun h => hk (hmem.1 h))]
        have := ih
        rw [if_neg hk] at this
        simp [keys] at this ⊢
        exact this

theorem nodupKeys_bump [Add α] {d : PyDict κ α} {k : κ} {v : α}
    (h : NodupKeys d) : NodupKeys (bump d k v) := by
  unfold NodupKeys at *
  rw [keys_bump]
  by_cases hk : k ∈ keys d
  · simp [hk, h]
  · simp only [if_neg hk]
    exact List.Nodup.append h (List.nodup_singleton k)
      (List.disjoint_singleton.2 hk)

theorem alookup_eq_none_iff {d : PyDict κ α} {k : κ} :
    alookup d k = none ↔ k ∉ keys d := by
  induction d with
  | nil => simp [keys]
  | cons p rest ih =>
    rw [alookup]
    by_cases hpk : p.1 = k
    · simp only [if_pos hpk]
      constructor
      · intro h; exact absurd h (by simp)
      · intro h
        exact absurd (by simp [keys, hpk.symm] : k ∈ keys (p :: rest)) h
    · simp only [if_neg hpk, ih]
      constructor
      · intro h hk
        simp only [keys, List.map_cons, List.mem_cons] at hk
        rcases hk with he | hk
        · exact hpk he.symm
        · exact h hk
      · intro h hk
        exact h (by simp [keys] at hk ⊢; exact Or.inr hk)

theorem mem_of_alookup_eq_some {d : PyDict κ α} {k : κ} {v : α}
    (h : alookup d k = some v) : (k, v) ∈ d := by
  induction d with
  | nil => simp [alookup] at h
  | cons p rest ih =>
    by_cases hpk : p.1 = k
    · rw [alookup, if_pos hpk] at h
      have hv : p.2 = v := Option.some.inj h
      have : p = (k, v) := by
        rcases p with ⟨k', v'⟩
        simp only at hpk hv
        simp [hpk, hv]
      rw [← this]
      exact List.mem_cons_self _ _
    · rw [alookup, if_neg hpk] at h
      exact List.mem_cons_of_mem _ (ih h)

theorem alookup_eq_some_of_mem {d : PyDict κ α} {k : κ} {v : α}
    (hnd : NodupKeys d) (h : (k, v) ∈ d) : alookup d k = some v := by
  induction d with
  | nil => simp at h
  | cons p rest ih =>
    unfold NodupKeys keys at hnd
    simp only [List.map_cons, List.nodup_cons] at hnd
    rcases List.mem_cons.1 h with h | h
    · subst h; simp [alookup]
    · have hpk : p.1 ≠ k := by
        intro he
        exact hnd.1 (he ▸ (List.mem_map.2 ⟨(k, v), h, rfl⟩))
      simp only [alookup, if_neg hpk]
      exact ih hnd.2 h

end DictLemmas

section UpdateLemmas

variable {κ α : Type} [DecidableEq κ]

theorem mem_setKey {d : PyDict κ α} {k : κ} {v : α} {p : κ × α}
    (h : p ∈ setKey d k v) : p ∈ d ∨ p = (k, v) := by
  induction d with
  | nil => simpa [setKey] using h
  | cons q rest ih =>
    by_cases hqk : q.1 = k
    · rw [setKey, if_pos hqk] at h
      rcases List.mem_cons.1 h with h | h
      · exact Or.inr h
      · exact Or.inl (List.mem_cons_of_mem _ h)
    · rw [setKey, if_neg hqk] at h
      rcases List.mem_cons.1 h with h | h
      · exact Or.inl (h ▸ List.mem_cons_self _ _)
      · rcases ih h with h | h
        · exact Or.inl (List.mem_cons_of_mem _ h)
        · exact Or.inr h

theorem setKey_of_not_mem_keys {d : PyDict κ α} {k : κ} {v : α}
    (h : k ∉ keys d) : setKey d k v = d ++ [(k, v)] := by
  induction d with
  | nil => simp [setKey]
  | cons q rest ih =>
    have hqk : q.1 ≠ k := by
      intro he
      exact h (by simp [keys, he])
    have hrest : k ∉ keys rest := by
      intro hk
      exact h (by simp [keys] at hk ⊢; exact Or.inr hk)
    rw [setKey, if_neg hqk, ih hrest]
    simp

theorem mem_dictUpdate {d l : PyDict κ α} {p : κ × α}
    (h : p ∈ dictUpdate d l) : p ∈ d ∨ p ∈ l := by
  unfold dictUpdate at h
  induction l generalizing d with
  | nil => exact Or.inl h
  | cons q rest ih =>
    rcases ih (d := setKey d q.1 q.2) h with h | h
    · rcases mem_setKey h with h | h
      · exact Or.inl h
      · right
        rw [h]
        exact List.mem_cons_self _ _
    · exact Or.inr (List.mem_cons_of_mem _ h)

theorem dictUpdate_eq_append {d l : PyDict κ α}
    (hfresh : ∀ k ∈ keys l, k ∉ keys d) (hnd : NodupKeys l) :
    dictUpdate d l = d ++ l := by
  unfold dictUpdate
  induction l generalizing d with
  | nil => simp
  | cons q rest ih =>
    have hq : q.1 ∉ keys d := hfresh q.1 (by simp [keys])
    unfold NodupKeys keys at hnd
    simp only [List.map_cons, List.nodup_cons] at hnd
    have hfresh' : ∀ k ∈ keys rest, k ∉ keys (setKey d q.1 q.2) := by
      intro k hk
      rw [setKey_of_not_mem_keys hq]
      unfold keys
      rw [List.map_append]
      intro hmem
      rcases List.mem_append.1 hmem with h | h
      · exact hfresh k (by simp [keys] at hk ⊢; exact Or.inr hk) h
      · simp only [List.map_cons, List.map_nil, List.mem_singleton] at h
        subst h
        exact hnd.1 hk
    calc List.foldl (fun d p => setKey d p.1 p.2) (setKey d q.1 q.2) rest
        = setKey d q.1 q.2 ++ rest := ih hfresh' hnd.2
      _ = d ++ q :: rest := by
          rw [setKey_of_not_mem_keys hq]
          simp

end UpdateLemmas

/-! ## Counting lemmas -/

theorem subsetIS_iff {s t : List Item} : subsetIS s t = true ↔ ∀ i ∈ s, i ∈ t := by
  simp [subsetIS, List.all_eq_true]

theorem countIn_nil {s : ItemSet} : countIn s [] = 0 := rfl

theorem countIn_cons {s : ItemSet} {t : Basket} {ts : List Basket} :
    countIn s (t :: ts) = countIn s ts + if subsetIS s t then 1 else 0 := by
  unfold countIn
  simp [List.countP_cons]

theorem countIn_mono {a b : ItemSet} (ts : List Basket)
    (h : ∀ x ∈ a, x ∈ b) : countIn b ts ≤ countIn a ts := by
  induction ts with
  | nil => simp [countIn_nil]
  | cons t ts ih =>
    rw [countIn_cons, countIn_cons]
    have : subsetIS b t = true → subsetIS a t = true := by
      intro hb
      exact subsetIS_iff.2 fun i hi => subsetIS_iff.1 hb i (h i hi)
    by_cases hb : subsetIS b t <;> by_cases ha : subsetIS a t <;>
      simp [hb, ha] at this ⊢ <;> omega

theorem exists_basket_of_countIn_pos {s : ItemSet} {ts : List Basket}
    (h : 0 < countIn s ts) : ∃ t ∈ ts, subsetIS s t = true := by
  unfold countIn at h
  exact List.countP_pos_iff.1 h

theorem length_le_maxLen {t : Basket} {ts : List Basket} (h : t ∈ ts) :
    t.length ≤ maxLen ts := by
  induction ts with
  | nil => simp at h
  | cons u ts ih =>
    rcases List.mem_cons.1 h with h | h
    · subst h
      simp [maxLen]
    · calc t.length ≤ maxLen ts := ih h
        _ ≤ maxLen (u :: ts) := by simp [maxLen]

/-! ## Canonical itemset lemmas -/

theorem IsCanon.nodup {s : ItemSet} (h : IsCanon s) : s.Nodup :=
  h.imp ne_of_lt

theorem IsCanon.sorted_le {s : ItemSet} (h : IsCanon s) :
    List.Sorted (· ≤ ·) s := h.imp le_of_lt

theorem IsCanon.sublist {a s : ItemSet} (hs : IsCanon s) (h : List.Sublist a s) :
    IsCanon a := List.Pairwise.sublist h hs

theorem sortStr_perm (l : List Item) : List.Perm (sortStr l) l :=
  List.perm_insertionSort _ l

theorem sortStr_sorted (l : List Item) : List.Sorted (· ≤ ·) (sortStr l) :=
  List.sorted_insertionSort _ l

theorem IsCanon.sortStr_eq {s : ItemSet} (h : IsCanon s) : sortStr s = s :=
  List.Sorted.insertionSort_eq h.sorted_le

theorem sortStr_length (l : List Item) : (sortStr l).length = l.length :=
  (sortStr_perm l).length_eq

theorem mem_sortStr {x : Item} {l : List Item} : x ∈ sortStr l ↔ x ∈ l :=
  (sortStr_perm l).mem_iff

theorem isCanon_canonIS (l : List Item) : IsCanon (canonIS l) := by
  have hnd : (canonIS l).Nodup := (sortStr_perm l.dedup).nodup_iff.2 (List.nodup_dedup l)
  have hs : List.Sorted (· ≤ ·) (canonIS l) := sortStr_sorted l.dedup
  exact List.Pairwise.imp₂ (fun a b hle hne => lt_of_le_of_ne hle hne) hs hnd

theorem mem_canonIS {x : Item} {l : List Item} : x ∈ canonIS l ↔ x ∈ l := by
  unfold canonIS
  rw [mem_sortStr, List.mem_dedup]

/-- Two canonical lists with the same members are equal; more generally the
canonical form of any enumeration of the members of a canonical list is that
list. -/
theorem canonIS_eq_of_mem_iff {l : List Item} {s : ItemSet}
    (hmem : ∀ x, x ∈ l ↔ x ∈ s) (hs : IsCanon s) : canonIS l = s := by
  have hperm : List.Perm (canonIS l) s := by
    apply (List.perm_ext_iff_of_nodup (isCanon_canonIS l).nodup hs.nodup).2
    intro a
    rw [mem_canonIS]
    exact hmem a
  exact List.eq_of_perm_of_sorted hperm (isCanon_canonIS l).sorted_le hs.sorted_le

theorem isCanon_unionIS (a b : ItemSet) : IsCanon (unionIS a b) :=
  isCanon_canonIS _

theorem mem_unionIS {x : Item} {a b : ItemSet} :
    x ∈ unionIS a b ↔ x ∈ a ∨ x ∈ b := by
  unfold unionIS
  rw [mem_canonIS, List.mem_append]

theorem isCanon_singleton (i : Item) : IsCanon [i] := by
  unfold IsCanon
  simp

/-- A duplicate-free itemset contained in a basket is no longer than it. -/
theorem length_le_of_subset_basket {s : ItemSet} {t : Basket}
    (hnd : s.Nodup) (h : subsetIS s t = true) : s.length ≤ t.length := by
  have hsub : ∀ x ∈ s, x ∈ t := subsetIS_iff.1 h
  calc s.length = s.toFinset.card := (List.toFinset_card_of_nodup hnd).symm
    _ ≤ t.toFinset.card := Finset.card_le_card (fun x hx => by
        rw [List.mem_toFinset] at hx ⊢
        exact hsub x hx)
    _ ≤ t.length := t.toFinset_card_le

/-- A frequent itemset fits in some basket, so its size is at most `maxLen`. -/
theorem length_le_maxLen_of_countIn_pos {s : ItemSet} {ts : List Basket}
    (hnd : s.Nodup) (h : 0 < countIn s ts) : s.length ≤ maxLen ts := by
  rcases exists_basket_of_countIn_pos h with ⟨t, ht, hsub⟩
  exact le_trans (length_le_of_subset_basket hnd hsub) (length_le_maxLen ht)

/-! ## Exact characterisation of the counting folds -/

theorem addCnt_zero (o : Option ℕ) : addCnt o 0 = o := rfl

/-- One pass of the candidate-counting inner loop over a basket `t`,
looked up at a key not among the candidates: unchanged. -/
theorem lookup_countFold_not_mem {cands : List ItemSet} {t : Basket}
    {d : PyDict ItemSet ℕ} {c : ItemSet} (h : c ∉ cands) :
    alookup (cands.foldl (fun d c' => if subsetIS c' t then bump d c' 1 else d) d) c =
      alookup d c := by
  induction cands generalizing d with
  | nil => rfl
  | cons c' rest ih =>
    have hne : c ≠ c' := fun he => h (he ▸ List.mem_cons_self _ _)
    have hrest : c ∉ rest := fun hr => h (List.mem_cons_of_mem _ hr)
    simp only [List.foldl_cons]
    rw [ih hrest]
    by_cases hsub : subsetIS c' t <;> simp [hsub, alookup_bump_of_ne hne]

/-- One pass of the candidate-counting inner loop over a basket `t`, looked
up at a candidate: bumped exactly when `c ⊆ t`. -/
theorem lookup_countFold_mem {cands : List ItemSet} {t : Basket}
    {c : ItemSet} (hnd : cands.Nodup) (hmem : c ∈ cands) (d : PyDict ItemSet ℕ) :
    alookup (cands.foldl (fun d c' => if subsetIS c' t then bump d c' 1 else d) d) c =
      if subsetIS c t then some ((alookup d c).getD 0 + 1) else alookup d c := by
  induction cands generalizing d with
  | nil => simp at hmem
  | cons c' rest ih =>
    simp only [List.nodup_cons] at hnd
    simp only [List.foldl_cons]
    rcases List.mem_cons.1 hmem with he | hmem'
    · subst he
      rw [lookup_countFold_not_mem hnd.1]
      by_cases hsub : subsetIS c t
      · rw [if_pos hsub, if_pos hsub, alookup_bump_self]
        cases alookup d c <;> simp
      · rw [if_neg hsub, if_neg hsub]
    · have hne : c ≠ c' := by
        intro he
        subst he
        exact hnd.1 hmem'
      rw [ih hnd.2 hmem']
      by_cases hsub : subsetIS c' t <;>
        simp [hsub, alookup_bump_of_ne hne]

/-- The outer counting fold, looked up at a non-candidate: `none` stays. -/
theorem lookup_countOuter_not_mem {cands : List ItemSet} {c : ItemSet}
    (h : c ∉ cands) (ts : List Basket) (d : PyDict ItemSet ℕ) :
    alookup (ts.foldl
      (fun d t => cands.foldl (fun d c' => if subsetIS c' t then bump d c' 1 else d) d) d) c =
      alookup d c := by
  induction ts generalizing d with
  | nil => rfl
  | cons t ts ih =>
    simp only [List.foldl_cons]
    rw [ih, lookup_countFold_not_mem h]

/-- The outer counting fold, looked up at a candidate: the count of baskets
containing it is added. -/
theorem lookup_countOuter_mem {cands : List ItemSet} {c : ItemSet}
    (hnd : cands.Nodup) (hmem : c ∈ cands) (ts : List Basket) (d : PyDict ItemSet ℕ) :
    alookup (ts.foldl
      (fun d t => cands.foldl (fun d c' => if subsetIS c' t then bump d c' 1 else d) d) d) c =
      addCnt (alookup d c) (countIn c ts) := by
  induction ts generalizing d with
  | nil => simp [countIn_nil, addCnt_zero]
  | cons t ts ih =>
    simp only [List.foldl_cons]
    rw [ih, lookup_countFold_mem hnd hmem, countIn_cons]
    by_cases hsub : subsetIS c t
    · rw [if_pos hsub]
      unfold addCnt
      by_cases hm : countIn c ts = 0
      · simp [hm, hsub]
      · simp only [hsub, if_true, hm, if_neg, if_false]
        simp
        omega
    · simp [hsub]

/-- The count dictionary produced by `countCandidates`, fully characterised. -/
theorem lookup_countCandidates {cands : List ItemSet} {c : ItemSet}
    (hnd : cands.Nodup) (ts : List Basket) :
    alookup (countCandidates cands ts) c =
      if c ∈ cands then addCnt none (countIn c ts) else none := by
  unfold countCandidates
  by_cases hmem : c ∈ cands
  · rw [if_pos hmem, lookup_countOuter_mem hnd hmem]
    rfl
  · rw [if_neg hmem, lookup_countOuter_not_mem hmem]
    rfl

/-- One pass of the singleton-counting inner loop over the distinct items of
a basket, looked up at `[j]`: bumped exactly when `j` is among them. -/
theorem lookup_singleFold {xs : List Item} {j : Item} (hnd : xs.Nodup)
    (d : PyDict ItemSet ℕ) :
    alookup (xs.foldl (fun d i => bump d [i] 1) d) [j] =
      if j ∈ xs then some ((alookup d [j]).getD 0 + 1) else alookup d [j] := by
  induction xs generalizing d with
  | nil => simp
  | cons i rest ih =>
    simp only [List.nodup_cons] at hnd
    simp only [List.foldl_cons]
    rw [ih hnd.2]
    by_cases hij : j = i
    · subst hij
      rw [if_neg hnd.1, if_pos (List.mem_cons_self _ _), alookup_bump_self]
      cases alookup d [j] <;> simp
    · have hne : ([j] : ItemSet) ≠ [i] := by simp [hij]
      rw [alookup_bump_of_ne hne]
      by_cases hmem : j ∈ rest <;>
        simp [hmem, hij]

/-- The singleton-count dictionary of `itemCounts`, fully characterised:
the value at `[j]` is the number of baskets containing `j` (absent if zero). -/
theorem lookup_itemCounts {j : Item} (ts : List Basket) :
    alookup (itemCounts ts) [j] = addCnt none (countIn [j] ts) := by
  unfold itemCounts
  suffices h : ∀ d : PyDict ItemSet ℕ,
      alookup (ts.foldl (fun d t => t.dedup.foldl (fun d i => bump d [i] 1) d) d) [j] =
        addCnt (alookup d [j]) (countIn [j] ts) by
    rw [h []]
    rfl
  induction ts with
  | nil => intro d; simp [countIn_nil, addCnt_zero]
  | cons t ts ih =>
    intro d
    simp only [List.foldl_cons]
    rw [ih, lookup_singleFold (List.nodup_dedup t), countIn_cons]
    have hsubt : subsetIS [j] t = true ↔ j ∈ t := by
      simp [subsetIS_iff]
    by_cases hj : j ∈ t
    · rw [if_pos (List.mem_dedup.2 hj)]
      have : subsetIS [j] t = true := hsubt.2 hj
      rw [this]
      unfold addCnt
      by_cases hm : countIn [j] ts = 0
      · simp [hm]
      · simp only [hm, if_neg, if_false]
        simp
        omega
    · rw [if_neg (fun h => hj (List.mem_dedup.1 h))]
      have : ¬ subsetIS [j] t = true := fun h => hj (hsubt.1 h)
      simp [this]

/-! ## Key-shape invariants of the counting dictionaries -/

theorem nodupKeys_countFold {cands : List ItemSet} {t : Basket}
    {d : PyDict ItemSet ℕ} (h : NodupKeys d) :
    NodupKeys (cands.foldl (fun d c => if subsetIS c t then bump d c 1 else d) d) := by
  apply foldl_inv (P := NodupKeys) cands d
  · intro d' c _ hd'
    by_cases hsub : subsetIS c t <;> simp [hsub, nodupKeys_bump, hd']
  · exact h

theorem nodupKeys_countCandidates (cands : List ItemSet) (ts : List Basket) :
    NodupKeys (countCandidates cands ts) := by
  unfold countCandidates
  apply foldl_inv (P := NodupKeys) ts []
  · intro d t _ hd
    exact nodupKeys_countFold hd
  · simp [NodupKeys, keys]

theorem keys_countCandidates_sub {cands : List ItemSet} {ts : List Basket} :
    ∀ c ∈ keys (countCandidates cands ts), c ∈ cands := by
  unfold countCandidates
  apply foldl_inv (P := fun d => ∀ c ∈ keys d, c ∈ cands) ts []
  · intro d t _ hd
    apply foldl_inv (P := fun d => ∀ c ∈ keys d, c ∈ cands) cands d
    · intro d' c' hc' hd' c hc
      by_cases hsub : subsetIS c' t
      · rw [if_pos hsub, keys_bump] at hc
        by_cases hin : c' ∈ keys d'
        · rw [if_pos hin] at hc
          exact hd' c hc
        · rw [if_neg hin] at hc
          rcases List.mem_append.1 hc with h | h
          · exact hd' c h
          · simp only [List.mem_singleton] at h
            exact h ▸ hc'
      · rw [if_neg hsub] at hc
        exact hd' c hc
    · exact hd
  · simp [keys]

theorem nodupKeys_itemCounts (ts : List Basket) : NodupKeys (itemCounts ts) := by
  unfold itemCounts
  apply foldl_inv (P := NodupKeys) ts []
  · intro d t _ hd
    apply foldl_inv (P := NodupKeys) t.dedup d
    · intro d' i _ hd'
      exact nodupKeys_bump hd'
    · exact hd
  · simp [NodupKeys, keys]

theorem keys_itemCounts_singleton {ts : List Basket} :
    ∀ c ∈ keys (itemCounts ts), ∃ i, c = [i] := by
  unfold itemCounts
  apply foldl_inv (P := fun d => ∀ c ∈ keys d, ∃ i, c = [i]) ts []
  · intro d t _ hd
    apply foldl_inv (P := fun d => ∀ c ∈ keys d, ∃ i, c = [i]) t.dedup d
    · intro d' i _ hd' c hc
      rw [keys_bump] at hc
      by_cases hin : ([i] : ItemSet) ∈ keys d'
      · rw [if_pos hin] at hc
        exact hd' c hc
      · rw [if_neg hin] at hc
        rcases List.mem_append.1 hc with h | h
        · exact hd' c h
        · simp only [List.mem_singleton] at h
          exact ⟨i, h⟩
    · exact hd
  · simp [keys]

/-! ## Candidate generation -/

theorem genCandidates_nodup (ks : List ItemSet) (k : ℕ) :
    (genCandidates ks k).Nodup := List.nodup_dedup _

theorem mem_genCandidates_elim {ks : List ItemSet} {k : ℕ} {c : ItemSet}
    (h : c ∈ genCandidates ks k) : c.length = k ∧ IsCanon c := by
  unfold genCandidates at h
  rw [List.mem_dedup, List.mem_filter] at h
  obtain ⟨hmem, hlen⟩ := h
  rcases List.mem_flatMap.1 hmem with ⟨i1, _, hc⟩
  rcases List.mem_map.1 hc with ⟨i2, _, he⟩
  refine ⟨by simpa using hlen, ?_⟩
  rw [← he]
  exact isCanon_unionIS i1 i2

theorem mem_genCandidates_intro {ks : List ItemSet} {k : ℕ} {i1 i2 c : ItemSet}
    (h1 : i1 ∈ ks) (h2 : i2 ∈ ks) (he : unionIS i1 i2 = c) (hlen : c.length = k) :
    c ∈ genCandidates ks k := by
  unfold genCandidates
  rw [List.mem_dedup, List.mem_filter]
  constructor
  · exact List.mem_flatMap.2 ⟨i1, h1, List.mem_map.2 ⟨i2, h2, he⟩⟩
  · simpa using hlen

/-- Every canonical itemset of size ≥ 2 is the union of two of its
(size−1)-subsets: all but the first element, and all but the last. -/
theorem unionIS_drop_take {s : ItemSet} (hs : IsCanon s) (h2 : 2 ≤ s.length) :
    unionIS (s.drop 1) (s.take (s.length - 1)) = s := by
  apply canonIS_eq_of_mem_iff _ hs
  intro x
  rw [List.mem_append]
  constructor
  · rintro (h | h)
    · exact (List.drop_subset 1 s) h
    · exact (List.take_subset _ s) h
  · intro hx
    conv at hx => rw [← List.take_append_drop (s.length - 1) s]
    rcases List.mem_append.1 hx with h | h
    · exact Or.inr h
    · left
      have : List.Sublist (s.drop (s.length - 1)) (s.drop 1) := by
        have := List.drop_sublist (s.length - 2) (s.drop 1)
        rwa [List.drop_drop, show 1 + (s.length - 2) = s.length - 1 by omega] at this
      exact this.subset h

theorem isCanon_drop {s : ItemSet} (hs : IsCanon s) (n : ℕ) : IsCanon (s.drop n) :=
  hs.sublist (List.drop_sublist n s)

theorem isCanon_take {s : ItemSet} (hs : IsCanon s) (n : ℕ) : IsCanon (s.take n) :=
  hs.sublist (List.take_sublist n s)

/-! ## Soundness and completeness of the mining loop -/

theorem aprioriLoop_zero (ts : List Basket) (n mc : ℕ) (freq : PyDict ItemSet ℚ)
    (ab L : PyDict ItemSet ℕ) (k : ℕ) :
    aprioriLoop ts n mc freq ab L k 0 = (freq, ab) := rfl

theorem aprioriLoop_succ (ts : List Basket) (n mc : ℕ) (freq : PyDict ItemSet ℚ)
    (ab L : PyDict ItemSet ℕ) (k fuel : ℕ) :
    aprioriLoop ts n mc freq ab L k (fuel + 1) =
      if L.isEmpty then (freq, ab)
      else
        let L2 := (countCandidates (genCandidates (keys L) k) ts).filter
          (fun p => decide (mc ≤ p.2))
        if L2.isEmpty then (freq, ab)
        else aprioriLoop ts n mc
          (dictUpdate freq (L2.map (fun p => (p.1, (p.2 : ℚ) / n))))
          (dictUpdate ab L2) L2 (k + 1) fuel := rfl

/-- Everything in the filtered level dictionary `L2` is a genuine counted
candidate: its value is the exact basket count, at least `min_count`, and its
key is a canonical itemset of size `k`. -/
theorem mem_level_filter {ts : List Basket} {mc k : ℕ} {ks : List ItemSet}
    {p : ItemSet × ℕ}
    (hp : p ∈ (countCandidates (genCandidates ks k) ts).filter
      (fun p => decide (mc ≤ p.2))) :
    p.2 = countIn p.1 ts ∧ mc ≤ p.2 ∧ p.1.length = k ∧ IsCanon p.1 := by
  rw [List.mem_filter] at hp
  obtain ⟨hmem, hge⟩ := hp
  rw [decide_eq_true_eq] at hge
  have hnd := nodupKeys_countCandidates (genCandidates ks k) ts
  have hlk := alookup_eq_some_of_mem hnd hmem
  rw [lookup_countCandidates (genCandidates_nodup ks k)] at hlk
  by_cases hc : p.1 ∈ genCandidates ks k
  · rw [if_pos hc] at hlk
    unfold addCnt at hlk
    by_cases hz : countIn p.1 ts = 0
    · rw [if_pos hz] at hlk
      exact absurd hlk (by simp)
    · rw [if_neg hz] at hlk
      have hv : p.2 = countIn p.1 ts := by
        have h2 := Option.some.inj hlk
        simp at h2
        omega
      rcases mem_genCandidates_elim hc with ⟨hlen, hcanon⟩
      exact ⟨hv, hge, hlen, hcanon⟩
  · rw [if_neg hc] at hlk
    exact absurd hlk (by simp)

theorem aprioriLoop_sound (ts : List Basket) (n mc : ℕ) :
    ∀ (fuel k : ℕ) (freq : PyDict ItemSet ℚ) (ab L : PyDict ItemSet ℕ),
    2 ≤ k →
    (∀ p ∈ freq, p.2 = (countIn p.1 ts : ℚ) / n ∧ mc ≤ countIn p.1 ts ∧ p.1 ≠ []) →
    (∀ p ∈ ab, p.2 = countIn p.1 ts ∧ mc ≤ p.2 ∧ p.1 ≠ []) →
    (∀ p ∈ (aprioriLoop ts n mc freq ab L k fuel).1,
        p.2 = (countIn p.1 ts : ℚ) / n ∧ mc ≤ countIn p.1 ts ∧ p.1 ≠ []) ∧
    (∀ p ∈ (aprioriLoop ts n mc freq ab L k fuel).2,
        p.2 = countIn p.1 ts ∧ mc ≤ p.2 ∧ p.1 ≠ []) := by
  intro fuel
  induction fuel with
  | zero =>
    intro k freq ab L _ hfreq hab
    rw [aprioriLoop_zero]
    exact ⟨hfreq, hab⟩
  | succ fuel ih =>
    intro k freq ab L hk hfreq hab
    rw [aprioriLoop_succ]
    by_cases hL0 : L.isEmpty
    · rw [if_pos hL0]
      exact ⟨hfreq, hab⟩
    · rw [if_neg hL0]
      dsimp only
      set L2 := (countCandidates (genCandidates (keys L) k) ts).filter
        (fun p => decide (mc ≤ p.2)) with hL2def
      by_cases hL2 : L2.isEmpty
      · rw [if_pos hL2]
        exact ⟨hfreq, hab⟩
      · rw [if_neg hL2]
        apply ih (k + 1)
        · omega
        · intro p hp
          rcases mem_dictUpdate hp with h | h
          · exact hfreq p h
          · rcases List.mem_map.1 h with ⟨q, hq, he⟩
            rcases mem_level_filter (hL2def ▸ hq) with ⟨hv, hge, hlen, _⟩
            refine ⟨?_, ?_, ?_⟩
            · rw [← he, hv]
            · rw [← he]
              simpa [hv] using hge
            · rw [← he]
              simp only
              intro hnil
              rw [hnil] at hlen
              simp at hlen
              omega
        · intro p hp
          rcases mem_dictUpdate hp with h | h
          · exact hab p h
          · rcases mem_level_filter (hL2def ▸ h) with ⟨hv, hge, hlen, _⟩
            refine ⟨hv, hge, ?_⟩
            intro hnil
            rw [hnil] at hlen
            simp at hlen
            omega

theorem nodupKeys_filter {κ α : Type} [DecidableEq κ] {d : PyDict κ α}
    (p : κ × α → Bool) (h : NodupKeys d) : NodupKeys (d.filter p) := by
  unfold NodupKeys keys at *
  exact ((List.filter_sublist d).map Prod.fst).nodup h

/-- Level-k completeness of the naive join plus exact counting: every
frequent canonical k-itemset survives into the next level dictionary,
provided the previous level dictionary contained every frequent canonical
(k−1)-itemset. -/
theorem level_complete {ts : List Basket} {mc k : ℕ} {L : PyDict ItemSet ℕ}
    (hmc : 1 ≤ mc) (hk : 2 ≤ k)
    (hL : ∀ S, IsCanon S → S.length = k - 1 → mc ≤ countIn S ts →
      (S, countIn S ts) ∈ L) :
    ∀ S, IsCanon S → S.length = k → mc ≤ countIn S ts →
      (S, countIn S ts) ∈ (countCandidates (genCandidates (keys L) k) ts).filter
        (fun p => decide (mc ≤ p.2)) := by
  intro S hcanon hlen hfreq
  have hi1canon : IsCanon (S.drop 1) := isCanon_drop hcanon 1
  have hi2canon : IsCanon (S.take (S.length - 1)) := isCanon_take hcanon _
  have hi1len : (S.drop 1).length = k - 1 := by simp [hlen]
  have hi2len : (S.take (S.length - 1)).length = k - 1 := by
    simp [hlen]
  have hi1cnt : mc ≤ countIn (S.drop 1) ts :=
    le_trans hfreq (countIn_mono ts (fun x hx => List.drop_subset 1 S hx))
  have hi2cnt : mc ≤ countIn (S.take (S.length - 1)) ts :=
    le_trans hfreq (countIn_mono ts (fun x hx => List.take_subset _ S hx))
  have hu : unionIS (S.drop 1) (S.take (S.length - 1)) = S :=
    unionIS_drop_take hcanon (by rw [hlen]; exact hk)
  have hS_cand : S ∈ genCandidates (keys L) k :=
    mem_genCandidates_intro
      (mem_keys_iff.2 ⟨_, hL _ hi1canon hi1len hi1cnt⟩)
      (mem_keys_iff.2 ⟨_, hL _ hi2canon hi2len hi2cnt⟩) hu hlen
  have hlkup : alookup (countCandidates (genCandidates (keys L) k) ts) S =
      some (countIn S ts) := by
    rw [lookup_countCandidates (genCandidates_nodup _ _), if_pos hS_cand]
    unfold addCnt
    have hz : ¬ countIn S ts = 0 := by omega
    simp [hz]
  rw [List.mem_filter]
  exact ⟨mem_of_alookup_eq_some hlkup, by simpa using hfreq⟩

/-- Completeness of the `while` loop: if the incoming level dictionary is
complete at size k−1 and the accumulated maps are complete below k, the final
maps contain every frequent canonical itemset (with its exact support and
count), for the fuel `apriori` supplies. -/
theorem aprioriLoop_complete (ts : List Basket) (n mc : ℕ) (hmc : 1 ≤ mc) :
    ∀ (fuel k : ℕ) (freq : PyDict ItemSet ℚ) (ab L : PyDict ItemSet ℕ),
    2 ≤ k →
    maxLen ts + 2 ≤ fuel + k →
    (∀ S, IsCanon S → S.length = k - 1 → mc ≤ countIn S ts →
      (S, countIn S ts) ∈ L) →
    (∀ p ∈ freq, p.1.length < k) →
    (∀ p ∈ ab, p.1.length < k) →
    (∀ S, IsCanon S → S ≠ [] → S.length ≤ k - 1 → mc ≤ countIn S ts →
      (S, (countIn S ts : ℚ) / n) ∈ freq) →
    (∀ S, IsCanon S → S ≠ [] → S.length ≤ k - 1 → mc ≤ countIn S ts →
      (S, countIn S ts) ∈ ab) →
    ∀ S, IsCanon S → S ≠ [] → mc ≤ countIn S ts →
      (S, (countIn S ts : ℚ) / n) ∈ (aprioriLoop ts n mc freq ab L k fuel).1 ∧
      (S, countIn S ts) ∈ (aprioriLoop ts n mc freq ab L k fuel).2 := by
  intro fuel
  induction fuel with
  | zero =>
    intro k freq ab L hk hbound hL hfK haK hpF hpA S hcanon hne hfreq
    rw [aprioriLoop_zero]
    have hlen : S.length ≤ maxLen ts :=
      length_le_maxLen_of_countIn_pos hcanon.nodup (by omega)
    have hsmall : S.length ≤ k - 1 := by omega
    exact ⟨hpF S hcanon hne hsmall hfreq, hpA S hcanon hne hsmall hfreq⟩
  | succ fuel ih =>
    intro k freq ab L hk hbound hL hfK haK hpF hpA S hcanon hne hfreq
    rw [aprioriLoop_succ]
    by_cases hL0 : L.isEmpty
    · rw [if_pos hL0]
      -- L empty: no frequent canonical itemset of size k−1 exists,
      -- so none of size ≥ k exists either.
      have hsmall : S.length ≤ k - 1 := by
        by_contra hbig
        push_neg at hbig
        have hklen : k - 1 ≤ S.length := by omega
        have htf : mc ≤ countIn (S.take (k - 1)) ts :=
          le_trans hfreq (countIn_mono ts (fun x hx => List.take_subset _ S hx))
        have := hL (S.take (k - 1)) (isCanon_take hcanon _)
          (by simp; omega) htf
        rw [List.isEmpty_iff] at hL0
        rw [hL0] at this
        simp at this
      exact ⟨hpF S hcanon hne hsmall hfreq, hpA S hcanon hne hsmall hfreq⟩
    · rw [if_neg hL0]
      dsimp only
      set L2 := (countCandidates (genCandidates (keys L) k) ts).filter
        (fun p => decide (mc ≤ p.2)) with hL2def
      have hlevel := level_complete hmc hk hL
      by_cases hL2e : L2.isEmpty
      · rw [if_pos hL2e]
        -- the next level is empty: no frequent canonical itemset of size k,
        -- hence none of size ≥ k.
        have hsmall : S.length ≤ k - 1 := by
          by_contra hbig
          push_neg at hbig
          have hklen : k ≤ S.length := by omega
          have htf : mc ≤ countIn (S.take k) ts :=
            le_trans hfreq (countIn_mono ts (fun x hx => List.take_subset _ S hx))
          have := hlevel (S.take k) (isCanon_take hcanon _) (by simp; omega) htf
          rw [List.isEmpty_iff] at hL2e
          rw [← hL2def, hL2e] at this
          simp at this
        exact ⟨hpF S hcanon hne hsmall hfreq, hpA S hcanon hne hsmall hfreq⟩
      · rw [if_neg hL2e]
        -- recurse at level k+1
        have hL2prop : ∀ p ∈ L2, p.2 = countIn p.1 ts ∧ mc ≤ p.2 ∧
            p.1.length = k ∧ IsCanon p.1 := fun p hp => mem_level_filter (hL2def ▸ hp)
        have hL2nd : NodupKeys L2 :=
          nodupKeys_filter _ (nodupKeys_countCandidates _ _)
        have hfreshF : ∀ c ∈ keys (L2.map (fun p => (p.1, (p.2 : ℚ) / n))),
            c ∉ keys freq := by
          intro c hc hcf
          rcases mem_keys_iff.1 hc with ⟨v, hv⟩
          rcases List.mem_map.1 hv with ⟨q, hq, he⟩
          rcases mem_keys_iff.1 hcf with ⟨w, hw⟩
          have hq1 : q.1 = c := (Prod.ext_iff.1 he).1
          have h1 : c.length = k := hq1 ▸ (hL2prop q hq).2.2.1
          have h2 : c.length < k := hfK (c, w) hw
          omega
        have hfreshA : ∀ c ∈ keys L2, c ∉ keys ab := by
          intro c hc hca
          rcases mem_keys_iff.1 hc with ⟨v, hv⟩
          rcases mem_keys_iff.1 hca with ⟨w, hw⟩
          have h1 : c.length = k := ((hL2prop (c, v) hv).2.2.1 : _)
          have h2 : c.length < k := haK (c, w) hw
          omega
        have hndF : NodupKeys (L2.map (fun p => (p.1, (p.2 : ℚ) / n))) := by
          unfold NodupKeys keys at *
          rw [List.map_map]
          exact hL2nd
        have heqF : dictUpdate freq (L2.map (fun p => (p.1, (p.2 : ℚ) / n))) =
            freq ++ L2.map (fun p => (p.1, (p.2 : ℚ) / n)) :=
          dictUpdate_eq_append hfreshF hndF
        have heqA : dictUpdate ab L2 = ab ++ L2 :=
          dictUpdate_eq_append hfreshA hL2nd
        apply ih (k + 1)
        · omega
        · omega
        · -- L2 is complete at size (k+1)−1 = k
          intro T hTc hTlen hTf
          have : (T, countIn T ts) ∈ L2 := hlevel T hTc (by omega) hTf
          exact this
        · -- key sizes below k+1 in the updated freq
          intro p hp
          rw [heqF] at hp
          rcases List.mem_append.1 hp with h | h
          · have := hfK p h
            omega
          · rcases List.mem_map.1 h with ⟨q, hq, he⟩
            have := (hL2prop q hq).2.2.1
            rw [← he]
            simp only
            omega
        · intro p hp
          rw [heqA] at hp
          rcases List.mem_append.1 hp with h | h
          · have := haK p h
            omega
          · have := (hL2prop p h).2.2.1
            omega
        · -- the updated freq is complete up to size k
          intro T hTc hTne hTlen hTf
          rw [heqF]
          rcases Nat.lt_or_ge T.length k with hlt | hge
          · exact List.mem_append_left _ (hpF T hTc hTne (by omega) hTf)
          · have hTk : T.length = k := by omega
            have hmem : (T, countIn T ts) ∈ L2 := hlevel T hTc hTk hTf
            exact List.mem_append_right _
              (List.mem_map.2 ⟨(T, countIn T ts), hmem, rfl⟩)
        · intro T hTc hTne hTlen hTf
          rw [heqA]
          rcases Nat.lt_or_ge T.length k with hlt | hge
          · exact List.mem_append_left _ (hpA T hTc hTne (by omega) hTf)
          · have hTk : T.length = k := by omega
            exact List.mem_append_right _ (hlevel T hTc hTk hTf)
        · exact hcanon
        · exact hne
        · exact hfreq

theorem minCount_pos (ms : ℚ) (n : ℕ) : 1 ≤ minCount ms n :=
  le_max_left 1 _

theorem mem_itemCounts_filter {ts : List Basket} {mc : ℕ} {p : ItemSet × ℕ}
    (hp : p ∈ (itemCounts ts).filter (fun p => decide (mc ≤ p.2))) :
    p.2 = countIn p.1 ts ∧ mc ≤ p.2 ∧ ∃ i, p.1 = [i] := by
  rw [List.mem_filter] at hp
  obtain ⟨hmem, hge⟩ := hp
  rw [decide_eq_true_eq] at hge
  have hkey : ∃ i, p.1 = [i] :=
    keys_itemCounts_singleton p.1 (List.mem_map.2 ⟨p, hmem, rfl⟩)
  rcases hkey with ⟨i, hi⟩
  have hlk := alookup_eq_some_of_mem (nodupKeys_itemCounts ts) hmem
  rw [hi, lookup_itemCounts] at hlk
  unfold addCnt at hlk
  by_cases hz : countIn [i] ts = 0
  · rw [if_pos hz] at hlk
    exact absurd hlk (by simp)
  · rw [if_neg hz] at hlk
    have hv := Option.some.inj hlk
    simp at hv
    exact ⟨by rw [hi, ← hv], hge, ⟨i, hi⟩⟩

theorem itemCounts_filter_complete {ts : List Basket} {mc : ℕ} (hmc : 1 ≤ mc)
    {i : Item} (h : mc ≤ countIn [i] ts) :
    ([i], countIn [i] ts) ∈ (itemCounts ts).filter (fun p => decide (mc ≤ p.2)) := by
  have hz : ¬ countIn [i] ts = 0 := by omega
  have hlk : alookup (itemCounts ts) [i] = some (countIn [i] ts) := by
    rw [lookup_itemCounts]
    unfold addCnt
    simp [hz]
  rw [List.mem_filter]
  exact ⟨mem_of_alookup_eq_some hlk, by simpa using h⟩

/-- Soundness of `apriori`: every entry of the returned support map carries
exactly `count/n` for the exact basket count of its itemset, that count
reaches `min_count`, and the itemset is non-empty; likewise the count map. -/
theorem apriori_sound (ts : List Basket) (ms : ℚ) :
    (∀ p ∈ (apriori ts ms).1,
      p.2 = (countIn p.1 ts : ℚ) / ts.length ∧
      minCount ms ts.length ≤ countIn p.1 ts ∧ p.1 ≠ []) ∧
    (∀ p ∈ (apriori ts ms).2,
      p.2 = countIn p.1 ts ∧ minCount ms ts.length ≤ p.2 ∧ p.1 ≠ []) := by
  unfold apriori
  apply aprioriLoop_sound ts ts.length (minCount ms ts.length) _ 2 _ _ _ le_rfl
  · intro p hp
    rcases List.mem_map.1 hp with ⟨q, hq, he⟩
    rcases mem_itemCounts_filter hq with ⟨hv, hge, i, hi⟩
    rw [← he]
    refine ⟨by rw [hv], by rw [← hv]; exact hge, by simp [hi]⟩
  · intro p hp
    rcases mem_itemCounts_filter hp with ⟨hv, hge, i, hi⟩
    exact ⟨hv, hge, by simp [hi]⟩

/-- Completeness of `apriori`: every non-empty canonical itemset whose exact
basket count reaches `min_count` appears in both returned maps, with its
exact relative support and absolute count.  This is the "naive join loses
nothing" guarantee. -/
theorem apriori_complete (ts : List Basket) (ms : ℚ) :
    ∀ S, IsCanon S → S ≠ [] → minCount ms ts.length ≤ countIn S ts →
      (S, (countIn S ts : ℚ) / ts.length) ∈ (apriori ts ms).1 ∧
      (S, countIn S ts) ∈ (apriori ts ms).2 := by
  intro S hcanon hne hfreq
  unfold apriori
  have hmc : 1 ≤ minCount ms ts.length := minCount_pos ms ts.length
  have hsingle : ∀ T : ItemSet, T.length = 1 → ∃ i, T = [i] := by
    intro T hT
    match T, hT with
    | [i], _ => exact ⟨i, rfl⟩
  apply aprioriLoop_complete ts ts.length (minCount ms ts.length) hmc
    (maxLen ts + 1) 2 _ _ _ le_rfl (by omega) _ _ _ _ _ S hcanon hne hfreq
  · -- level-1 dictionary is complete
    intro T _ hTlen hTf
    rcases hsingle T (by omega) with ⟨i, hi⟩
    subst hi
    exact itemCounts_filter_complete hmc hTf
  · -- freq keys have size < 2
    intro p hp
    rcases List.mem_map.1 hp with ⟨q, hq, he⟩
    rcases mem_itemCounts_filter hq with ⟨_, _, i, hi⟩
    rw [← he]
    simp [hi]
  · intro p hp
    rcases mem_itemCounts_filter hp with ⟨_, _, i, hi⟩
    simp [hi]
  · -- freq is complete at sizes ≤ 1
    intro T hTc hTne hTlen hTf
    rcases hsingle T (by rcases T with _ | ⟨a, _ | ⟨b, l⟩⟩ <;> simp_all) with ⟨i, hi⟩
    subst hi
    exact List.mem_map.2 ⟨([i], countIn [i] ts),
      itemCounts_filter_complete hmc hTf, rfl⟩
  · intro T hTc hTne hTlen hTf
    rcases hsingle T (by rcases T with _ | ⟨a, _ | ⟨b, l⟩⟩ <;> simp_all) with ⟨i, hi⟩
    subst hi
    exact itemCounts_filter_complete hmc hTf

/-! ## Claim theorems -/

/-- C1, counterexample to the claim as stated: with `min_support = 0` (a
valid configuration, supports lie in [0,1]) and the single basket `{"a"}`,
the itemset `{"b"}` has support `0/1 = 0 ≥ min_support`, yet the mapping
returned by `apriori` is exactly `{{"a"}: 1.0}` and does not contain
`{"b"}`: `min_count = max(1, ...) = 1` silently excludes itemsets that
occur in no basket. -/
theorem C1_counterexample :
    (0 : ℚ) ≤ (countIn ["b"] [["a"]] : ℚ) / (List.length [["a"]] : ℚ) ∧
    (["b"], (countIn ["b"] [["a"]] : ℚ) / (List.length [["a"]] : ℚ)) ∉
      (apriori [["a"]] 0).1 ∧
    (apriori [["a"]] 0).1 = [(["a"], 1)] := by
  refine ⟨by norm_num [countIn], ?_, by with_unfolding_all decide⟩
  have h : (apriori [["a"]] 0).1 = [(["a"], 1)] := by with_unfolding_all decide
  rw [h]
  intro hmem
  simp at hmem

/-- C1 (amended): for every non-empty basket collection and every non-empty
canonical itemset `S` that occurs in at least one basket and has support at
least `min_support`, the mapping returned by `apriori` contains `S`, mapped
to its exact relative support `count(S)/n` and to its exact absolute count;
the naive level-wise join loses no such itemset. -/
theorem C1_apriori_contains_frequent (ts : List Basket) (ms : ℚ) (S : ItemSet)
    (hne : ts ≠ []) (hcanon : IsCanon S) (hSne : S ≠ [])
    (hsup : ms ≤ (countIn S ts : ℚ) / (ts.length : ℚ))
    (hocc : 1 ≤ countIn S ts) :
    (S, (countIn S ts : ℚ) / (ts.length : ℚ)) ∈ (apriori ts ms).1 ∧
    (S, countIn S ts) ∈ (apriori ts ms).2 := by
  apply apriori_complete ts ms S hcanon hSne
  have hn : 0 < (ts.length : ℚ) := by
    have : ts.length ≠ 0 := fun h => hne (List.length_eq_zero.1 h)
    positivity
  have hmul : ms * (ts.length : ℚ) ≤ (countIn S ts : ℚ) := by
    rw [← le_div_iff hn]
    exact hsup
  unfold minCount pyInt
  by_cases hpos : 0 ≤ ms * (ts.length : ℚ)
  · rw [if_pos hpos]
    have hfl : ⌊ms * (ts.length : ℚ)⌋ ≤ (countIn S ts : ℤ) := by
      calc ⌊ms * (ts.length : ℚ)⌋ ≤ ⌊(countIn S ts : ℚ)⌋ := Int.floor_le_floor hmul
        _ = (countIn S ts : ℤ) := Int.floor_natCast _
    have : (⌊ms * (ts.length : ℚ)⌋).toNat ≤ countIn S ts := Int.toNat_le.2 hfl
    omega
  · rw [if_neg hpos]
    push_neg at hpos
    have hc : ⌈ms * (ts.length : ℚ)⌉ ≤ 0 :=
      Int.ceil_le.2 (by exact_mod_cast le_of_lt hpos)
    have : (⌈ms * (ts.length : ℚ)⌉).toNat = 0 := by omega
    omega

/-- Witness for C1 (amended): the pair itemset `{"a","b"}` in the two baskets
`{"a","b"}, {"a"}` with `min_support = 1/2`: it occurs once, support
`1/2 ≥ 1/2`, and `apriori` returns it with support `1/2` and count `1`. -/
theorem C1_witness :
    ((([["a", "b"], ["a"]] : List Basket) ≠ []) ∧ IsCanon ["a", "b"] ∧
      (1 : ℚ) / 2 ≤ (countIn ["a", "b"] [["a", "b"], ["a"]] : ℚ) /
        ((List.length [["a", "b"], ["a"]] : ℕ) : ℚ) ∧
      1 ≤ countIn ["a", "b"] [["a", "b"], ["a"]]) ∧
    (["a", "b"], (countIn ["a", "b"] [["a", "b"], ["a"]] : ℚ) /
        ((List.length [["a", "b"], ["a"]] : ℕ) : ℚ)) ∈
      (apriori [["a", "b"], ["a"]] (1 / 2)).1 ∧
    (["a", "b"], countIn ["a", "b"] [["a", "b"], ["a"]]) ∈
      (apriori [["a", "b"], ["a"]] (1 / 2)).2 :=
  ⟨⟨by decide, by with_unfolding_all decide, by with_unfolding_all decide,
      by with_unfolding_all decide⟩,
    C1_apriori_contains_frequent [["a", "b"], ["a"]] (1 / 2) ["a", "b"]
      (by decide) (by with_unfolding_all decide) (by decide)
      (by with_unfolding_all decide) (by with_unfolding_all decide)⟩

/-- C5: anti-monotonicity of the returned supports.  For any two itemsets
`A ⊂ B` (strict subset) that both appear in the support mapping returned by
`apriori` on the same baskets, the support mapped to `A` is at least the
support mapped to `B`. -/
theorem C5_support_antitone (ts : List Basket) (ms : ℚ) (A B : ItemSet)
    (qA qB : ℚ) (hA : (A, qA) ∈ (apriori ts ms).1)
    (hB : (B, qB) ∈ (apriori ts ms).1)
    (hsub : ∀ x ∈ A, x ∈ B) (hne : A ≠ B) : qB ≤ qA := by
  obtain ⟨hf, -⟩ := apriori_sound ts ms
  obtain ⟨hqa0, hga0, -⟩ := hf _ hA
  obtain ⟨hqb0, hgb0, -⟩ := hf _ hB
  have hqa : qA = (countIn A ts : ℚ) / ts.length := hqa0
  have hqb : qB = (countIn B ts : ℚ) / ts.length := hqb0
  have hgb : minCount ms ts.length ≤ countIn B ts := hgb0
  have hcnt : countIn B ts ≤ countIn A ts := countIn_mono ts hsub
  have hBpos : 1 ≤ countIn B ts := le_trans (minCount_pos ms ts.length) hgb
  have hn : 0 < (ts.length : ℚ) := by
    rcases exists_basket_of_countIn_pos (show 0 < countIn B ts by omega) with
      ⟨t, ht, -⟩
    have h0 : 0 < ts.length := List.length_pos.2 (by rintro rfl; simp at ht)
    exact_mod_cast h0
  rw [hqa, hqb]
  gcongr

/-- Witness for C5: in the baskets `{"a","b"}, {"a"}` with `min_support = 0`,
`{"a"} ⊂ {"a","b"}` are both frequent, with supports `1` and `1/2`. -/
theorem C5_witness :
    ((["a"], (1 : ℚ)) ∈ (apriori [["a", "b"], ["a"]] 0).1 ∧
      (["a", "b"], (1 : ℚ) / 2) ∈ (apriori [["a", "b"], ["a"]] 0).1 ∧
      (∀ x ∈ (["a"] : ItemSet), x ∈ (["a", "b"] : ItemSet)) ∧
      (["a"] : ItemSet) ≠ ["a", "b"]) ∧
    (1 : ℚ) / 2 ≤ 1 :=
  ⟨⟨by with_unfolding_all decide, by with_unfolding_all decide, by decide,
      by decide⟩,
    C5_support_antitone [["a", "b"], ["a"]] 0 ["a"] ["a", "b"] 1 ((1 : ℚ) / 2)
      (by with_unfolding_all decide) (by with_unfolding_all decide)
      (by decide) (by decide)⟩

/-- C10: every itemset returned by `apriori` on a non-empty basket
collection has absolute count at least `max(1, int(min_support · n))`
(`int` truncates, i.e. floors a non-negative product), hence occurs in at
least one basket and has support at least `1/n > 0`, even for
`min_support = 0`; and when `min_support · n` is fractional the result can
contain itemsets with support strictly below `min_support`, witnessed by
`n = 3`, `min_support = 1/2`, where `{"a"}` (support `1/3 < 1/2`) is
returned because `min_count = max(1, int(3/2)) = 1`. -/
theorem C10_min_count_floor :
    (∀ (ts : List Basket) (ms : ℚ), ts ≠ [] →
      (∀ p ∈ (apriori ts ms).2,
        minCount ms ts.length ≤ p.2 ∧ 1 ≤ p.2 ∧ 1 ≤ countIn p.1 ts) ∧
      (∀ p ∈ (apriori ts ms).1,
        1 / (ts.length : ℚ) ≤ p.2 ∧ 0 < p.2)) ∧
    ((["a"], 1) ∈ (apriori [["a"], ["b"], ["c"]] (1 / 2)).2 ∧
      (["a"], (1 : ℚ) / 3) ∈ (apriori [["a"], ["b"], ["c"]] (1 / 2)).1 ∧
      (1 : ℚ) / 3 < 1 / 2 ∧ minCount (1 / 2) 3 = 1) := by
  constructor
  · intro ts ms hne
    obtain ⟨hf, ha⟩ := apriori_sound ts ms
    have hmc := minCount_pos ms ts.length
    have hn : 0 < (ts.length : ℚ) := by
      have h0 : 0 < ts.length := List.length_pos.2 hne
      exact_mod_cast h0
    constructor
    · intro p hp
      obtain ⟨hv, hge, -⟩ := ha p hp
      exact ⟨hge, by omega, by rw [← hv]; omega⟩
    · intro p hp
      obtain ⟨hv0, hge, -⟩ := hf p hp
      have hv : p.2 = (countIn p.1 ts : ℚ) / ts.length := hv0
      have h1 : 1 ≤ countIn p.1 ts := le_trans hmc hge
      constructor
      · rw [hv]
        gcongr
        exact_mod_cast h1
      · rw [hv]
        apply div_pos _ hn
        exact_mod_cast h1
  · refine ⟨by with_unfolding_all decide, by with_unfolding_all decide,
      by norm_num, by with_unfolding_all decide⟩

/-- Witness for C10: the single basket `{"a"}` with `min_support = 0`. -/
theorem C10_witness :
    (([["a"]] : List Basket) ≠ [] ∧ (["a"], (1 : ℚ)) ∈ (apriori [["a"]] 0).1) ∧
    (1 / ((List.length ([["a"]] : List Basket)) : ℚ) ≤ 1 ∧ (0 : ℚ) < 1) :=
  ⟨⟨by decide, by with_unfolding_all decide⟩,
    (C10_min_count_floor.1 [["a"]] 0 (by decide)).2 (["a"], 1)
      (by with_unfolding_all decide)⟩

/-! ## Normal form of `generate_rules` -/

theorem foldl_eq_append {α β : Type _} {f : List β → α → List β} {g : α → List β}
    (hf : ∀ acc x, f acc x = acc ++ g x) :
    ∀ (l : List α) (acc : List β), l.foldl f acc = acc ++ l.flatMap g := by
  intro l
  induction l with
  | nil => intro acc; simp
  | cons x xs ih =>
    intro acc
    rw [List.foldl_cons, hf, ih, List.flatMap_cons, List.append_assoc]

theorem generateRules_eq_flatMap (freq : PyDict ItemSet ℚ)
    (ab : PyDict ItemSet ℕ) (mc ml : ℚ) (b : Bool) :
    generateRules freq ab mc ml b = freq.flatMap (rulesOfEntry freq mc ml b) := by
  unfold generateRules
  have hinner : ∀ (p : ItemSet × ℚ) (acc : List RuleT) (A : List Item),
      (fun (rules : List RuleT) (A : List Item) =>
        let B := p.1.filter (fun x => decide (x ∉ A))
        let sup_x := lookupD freq A 0
        let sup_y := lookupD freq B 0
        if sup_x = 0 ∨ sup_y = 0 then rules
        else
          let conf := p.2 / sup_x
          let lift := p.2 / (sup_x * sup_y)
          if mc ≤ conf ∧ ml ≤ lift then
            rules ++ [⟨sortStr A, sortStr B, p.2, conf, lift⟩]
          else rules) acc A = acc ++ splitRule freq mc ml p A := by
    intro p acc A
    unfold splitRule
    dsimp only
    by_cases h1 : lookupD freq A 0 = 0 ∨
        lookupD freq (p.1.filter (fun x => decide (x ∉ A))) 0 = 0
    · rw [if_pos h1, if_pos h1]
      simp
    · rw [if_neg h1, if_neg h1]
      by_cases h2 : mc ≤ p.2 / lookupD freq A 0 ∧
          ml ≤ p.2 / (lookupD freq A 0 *
            lookupD freq (p.1.filter (fun x => decide (x ∉ A))) 0)
      · rw [if_pos h2, if_pos h2]
      · rw [if_neg h2, if_neg h2]
        simp
  have hmid : ∀ (p : ItemSet × ℚ) (acc : List RuleT) (r : ℕ),
      (fun (rules : List RuleT) (r : ℕ) =>
        (p.1.sublistsLen r).foldl (fun rules A =>
          let B := p.1.filter (fun x => decide (x ∉ A))
          let sup_x := lookupD freq A 0
          let sup_y := lookupD freq B 0
          if sup_x = 0 ∨ sup_y = 0 then rules
          else
            let conf := p.2 / sup_x
            let lift := p.2 / (sup_x * sup_y)
            if mc ≤ conf ∧ ml ≤ lift then
              rules ++ [⟨sortStr A, sortStr B, p.2, conf, lift⟩]
            else rules) rules) acc r =
        acc ++ (p.1.sublistsLen r).flatMap (splitRule freq mc ml p) := by
    intro p acc r
    exact foldl_eq_append (hinner p) _ acc
  have houter : ∀ (acc : List RuleT) (p : ItemSet × ℚ),
      (if p.1.length < 2 then acc
       else if b ∧ p.1.length ≠ 2 then acc
       else (List.range' 1 (p.1.length - 1)).foldl (fun rules r =>
        (p.1.sublistsLen r).foldl (fun rules A =>
          let B := p.1.filter (fun x => decide (x ∉ A))
          let sup_x := lookupD freq A 0
          let sup_y := lookupD freq B 0
          if sup_x = 0 ∨ sup_y = 0 then rules
          else
            let conf := p.2 / sup_x
            let lift := p.2 / (sup_x * sup_y)
            if mc ≤ conf ∧ ml ≤ lift then
              rules ++ [⟨sortStr A, sortStr B, p.2, conf, lift⟩]
            else rules) rules) acc) =
      acc ++ rulesOfEntry freq mc ml b p := by
    intro acc p
    unfold rulesOfEntry
    by_cases hlen : p.1.length < 2
    · simp [hlen]
    · simp only [hlen, if_false]
      by_cases hb : b ∧ p.1.length ≠ 2
      · simp [hb]
      · simp only [hb, if_false]
        exact foldl_eq_append (hmid p) _ acc
  calc List.foldl _ [] freq = [] ++ freq.flatMap (rulesOfEntry freq mc ml b) :=
        foldl_eq_append houter freq []
    _ = freq.flatMap (rulesOfEntry freq mc ml b) := List.nil_append _

theorem mem_splitRule_elim {freq : PyDict ItemSet ℚ} {mc ml : ℚ}
    {p : ItemSet × ℚ} {A : List Item} {r : RuleT}
    (h : r ∈ splitRule freq mc ml p A) :
    lookupD freq A 0 ≠ 0 ∧
    lookupD freq (p.1.filter (fun x => decide (x ∉ A))) 0 ≠ 0 ∧
    mc ≤ p.2 / lookupD freq A 0 ∧
    ml ≤ p.2 / (lookupD freq A 0 *
      lookupD freq (p.1.filter (fun x => decide (x ∉ A))) 0) ∧
    r = ⟨sortStr A, sortStr (p.1.filter (fun x => decide (x ∉ A))), p.2,
      p.2 / lookupD freq A 0,
      p.2 / (lookupD freq A 0 *
        lookupD freq (p.1.filter (fun x => decide (x ∉ A))) 0)⟩ := by
  unfold splitRule at h
  dsimp only at h
  by_cases h1 : lookupD freq A 0 = 0 ∨
      lookupD freq (p.1.filter (fun x => decide (x ∉ A))) 0 = 0
  · rw [if_pos h1] at h
    simp at h
  · rw [if_neg h1] at h
    push_neg at h1
    by_cases h2 : mc ≤ p.2 / lookupD freq A 0 ∧
        ml ≤ p.2 / (lookupD freq A 0 *
          lookupD freq (p.1.filter (fun x => decide (x ∉ A))) 0)
    · rw [if_pos h2] at h
      rcases List.mem_singleton.1 h with rfl
      exact ⟨h1.1, h1.2, h2.1, h2.2, rfl⟩
    · rw [if_neg h2] at h
      simp at h

theorem mem_splitRule_intro {freq : PyDict ItemSet ℚ} {mc ml : ℚ}
    {p : ItemSet × ℚ} {A : List Item}
    (h1 : lookupD freq A 0 ≠ 0)
    (h2 : lookupD freq (p.1.filter (fun x => decide (x ∉ A))) 0 ≠ 0)
    (h3 : mc ≤ p.2 / lookupD freq A 0)
    (h4 : ml ≤ p.2 / (lookupD freq A 0 *
      lookupD freq (p.1.filter (fun x => decide (x ∉ A))) 0)) :
    (⟨sortStr A, sortStr (p.1.filter (fun x => decide (x ∉ A))), p.2,
      p.2 / lookupD freq A 0,
      p.2 / (lookupD freq A 0 *
        lookupD freq (p.1.filter (fun x => decide (x ∉ A))) 0)⟩ : RuleT) ∈
      splitRule freq mc ml p A := by
  unfold splitRule
  dsimp only
  rw [if_neg (by push_neg; exact ⟨h1, h2⟩), if_pos ⟨h3, h4⟩]
  exact List.mem_singleton.2 rfl

theorem mem_rulesOfEntry_elim {freq : PyDict ItemSet ℚ} {mc ml : ℚ} {b : Bool}
    {p : ItemSet × ℚ} {r : RuleT} (h : r ∈ rulesOfEntry freq mc ml b p) :
    2 ≤ p.1.length ∧ (b = true → p.1.length = 2) ∧
    ∃ A, List.Sublist A p.1 ∧ 1 ≤ A.length ∧ A.length < p.1.length ∧
      r ∈ splitRule freq mc ml p A := by
  unfold rulesOfEntry at h
  by_cases hlen : p.1.length < 2
  · rw [if_pos hlen] at h
    simp at h
  · rw [if_neg hlen] at h
    by_cases hb : b ∧ p.1.length ≠ 2
    · rw [if_pos hb] at h
      simp at h
    · rw [if_neg hb] at h
      rcases List.mem_flatMap.1 h with ⟨rr, hrr, hA⟩
      rcases List.mem_flatMap.1 hA with ⟨A, hAmem, hAr⟩
      rw [List.mem_range'_1] at hrr
      rcases List.mem_sublistsLen.1 hAmem with ⟨hsub, hAlen⟩
      refine ⟨by omega, ?_, A, hsub, by omega, by omega, hAr⟩
      intro hbt
      by_contra hne
      exact hb ⟨hbt, hne⟩

theorem mem_rulesOfEntry_intro {freq : PyDict ItemSet ℚ} {mc ml : ℚ} {b : Bool}
    {p : ItemSet × ℚ} {r : RuleT} {A : List Item}
    (hsub : List.Sublist A p.1) (h1 : 1 ≤ A.length) (h2 : A.length < p.1.length)
    (hb : b = true → p.1.length = 2)
    (hr : r ∈ splitRule freq mc ml p A) :
    r ∈ rulesOfEntry freq mc ml b p := by
  unfold rulesOfEntry
  rw [if_neg (by omega), if_neg (by
    rintro ⟨hbt, hne⟩
    exact hne (hb hbt))]
  refine List.mem_flatMap.2 ⟨A.length, ?_, List.mem_flatMap.2
    ⟨A, List.mem_sublistsLen.2 ⟨hsub, rfl⟩, hr⟩⟩
  rw [List.mem_range'_1]
  omega

/-- C6: every rule emitted by `generate_rules` satisfies
`confidence ≥ min_conf` and `lift ≥ min_lift`; no rule violating either
threshold appears in the output, for any inputs. -/
theorem C6_thresholds (freq : PyDict ItemSet ℚ) (ab : PyDict ItemSet ℕ)
    (mc ml : ℚ) (b : Bool) (r : RuleT)
    (h : r ∈ generateRules freq ab mc ml b) :
    mc ≤ r.conf ∧ ml ≤ r.lift := by
  rw [generateRules_eq_flatMap] at h
  rcases List.mem_flatMap.1 h with ⟨p, _, hp⟩
  rcases mem_rulesOfEntry_elim hp with ⟨-, -, A, -, -, -, hr⟩
  rcases mem_splitRule_elim hr with ⟨-, -, h3, h4, rfl⟩
  exact ⟨h3, h4⟩

/-- Witness for C6: the toy mining run on
`{"a","b"}, {"a","b"}, {"a","b","c"}, {"a"}, {"b","c"}` at
`min_support = 2/5`, thresholds `1/2` and `9/10`: the first emitted rule is
`{"b"} → {"a"}` with confidence `3/4 ≥ 1/2` and lift `15/16 ≥ 9/10`. -/
theorem C6_witness :
    ((⟨["b"], ["a"], 3 / 5, 3 / 4, 15 / 16⟩ : RuleT) ∈
      generateRules (apriori [["a", "b"], ["a", "b"], ["a", "b", "c"], ["a"],
        ["b", "c"]] (2 / 5)).1 (apriori [["a", "b"], ["a", "b"],
        ["a", "b", "c"], ["a"], ["b", "c"]] (2 / 5)).2 (1 / 2) (9 / 10) false) ∧
    (1 : ℚ) / 2 ≤ (3 : ℚ) / 4 ∧ (9 : ℚ) / 10 ≤ (15 : ℚ) / 16 :=
  ⟨by with_unfolding_all decide,
    C6_thresholds
      (apriori [["a", "b"], ["a", "b"], ["a", "b", "c"], ["a"],
        ["b", "c"]] (2 / 5)).1
      (apriori [["a", "b"], ["a", "b"], ["a", "b", "c"], ["a"],
        ["b", "c"]] (2 / 5)).2
      (1 / 2) (9 / 10) false ⟨["b"], ["a"], 3 / 5, 3 / 4, 15 / 16⟩
      (by with_unfolding_all decide)⟩

/-! ## The antecedent/consequent split of a canonical itemset -/

theorem filter_mem_of_sublist {A S : List Item} (h : List.Sublist A S)
    (hnd : S.Nodup) : S.filter (fun x => decide (x ∈ A)) = A := by
  induction h with
  | slnil => rfl
  | cons x hsub ih =>
    rename_i A' S'
    rw [List.nodup_cons] at hnd
    rw [List.filter_cons]
    have hx : ¬ x ∈ A' := fun hmem => hnd.1 (hsub.subset hmem)
    simp only [hx, decide_False, if_false]
    exact ih hnd.2
  | cons₂ x hsub ih =>
    rename_i A' S'
    rw [List.nodup_cons] at hnd
    rw [List.filter_cons]
    simp only [List.mem_cons, true_or, decide_True, if_true]
    congr 1
    rw [List.filter_congr (fun y hy => ?_)]
    · exact ih hnd.2
    · have hyx : ¬ y = x := fun he => hnd.1 (he ▸ hy)
      simp [hyx]

theorem length_filter_add_length_filter_not {α : Type _} (l : List α)
    (pb : α → Bool) :
    (l.filter pb).length + (l.filter (fun x => !pb x)).length = l.length := by
  induction l with
  | nil => rfl
  | cons a l ih =>
    rw [List.filter_cons, List.filter_cons]
    cases h : pb a <;> simp [h] <;> omega

theorem length_filter_not_mem {A S : List Item} (h : List.Sublist A S)
    (hnd : S.Nodup) :
    (S.filter (fun x => decide (x ∉ A))).length = S.length - A.length := by
  have hsum := length_filter_add_length_filter_not S (fun x => decide (x ∈ A))
  rw [filter_mem_of_sublist h hnd] at hsum
  have hcongr : S.filter (fun x => decide (x ∉ A)) =
      S.filter (fun x => !decide (x ∈ A)) := by
    apply List.filter_congr
    intro y _
    simp
  rw [hcongr]
  omega

theorem mem_filter_not_iff {x : Item} {A S : List Item} :
    x ∈ S.filter (fun x => decide (x ∉ A)) ↔ x ∈ S ∧ x ∉ A := by
  rw [List.mem_filter]
  simp

/-- Re-uniting a split: for a canonical itemset `S` and a sublist `A`,
`A ∪ (S − A) = S`. -/
theorem unionIS_split {A S : List Item} (hc : IsCanon S) (h : List.Sublist A S) :
    unionIS A (S.filter (fun x => decide (x ∉ A))) = S := by
  apply canonIS_eq_of_mem_iff _ hc
  intro x
  rw [List.mem_append, mem_filter_not_iff]
  constructor
  · rintro (hx | ⟨hx, -⟩)
    · exact h.subset hx
    · exact hx
  · intro hx
    by_cases hA : x ∈ A
    · exact Or.inl hA
    · exact Or.inr ⟨hx, hA⟩

/-- C7: every rule emitted by `generate_rules` (from a mapping whose keys
are canonical itemsets with no duplicates, as `apriori` produces) carries
exactly `confidence = support(A∪B)/support(A)` and
`lift = confidence/support(B) = support(A∪B)/(support(A)·support(B))`,
the supports being the ones recorded in the mapping. -/
theorem C7_rule_identities (freq : PyDict ItemSet ℚ) (ab : PyDict ItemSet ℕ)
    (mc ml : ℚ) (b : Bool)
    (hcanon : ∀ p ∈ freq, IsCanon p.1) (hnd : NodupKeys freq) (r : RuleT)
    (h : r ∈ generateRules freq ab mc ml b) :
    lookupD freq (unionIS r.ant r.con) 0 = r.sup ∧
    r.conf = r.sup / lookupD freq r.ant 0 ∧
    r.lift = r.conf / lookupD freq r.con 0 ∧
    r.lift = r.sup / (lookupD freq r.ant 0 * lookupD freq r.con 0) := by
  rw [generateRules_eq_flatMap] at h
  rcases List.mem_flatMap.1 h with ⟨p, hpmem, hp⟩
  rcases mem_rulesOfEntry_elim hp with ⟨-, -, A, hsub, -, -, hr⟩
  rcases mem_splitRule_elim hr with ⟨h1, h2, -, -, rfl⟩
  have hc : IsCanon p.1 := hcanon p hpmem
  have hA : sortStr A = A := (hc.sublist hsub).sortStr_eq
  have hB : sortStr (p.1.filter (fun x => decide (x ∉ A))) =
      p.1.filter (fun x => decide (x ∉ A)) :=
    (hc.sublist (List.filter_sublist p.1)).sortStr_eq
  have hu : unionIS A (p.1.filter (fun x => decide (x ∉ A))) = p.1 :=
    unionIS_split hc hsub
  refine ⟨?_, ?_, ?_, ?_⟩ <;> simp only [hA, hB]
  · rw [hu]
    unfold lookupD
    rw [alookup_eq_some_of_mem hnd hpmem]
    rfl
  · rw [div_div]

/-- Witness for C7: the mapping `{{"a"}: 1/2, {"b"}: 1/2, {"a","b"}: 1/2}`
emits `{"a"} → {"b"}` with confidence `1` and lift `2`, satisfying all three
identities. -/
theorem C7_witness :
    lookupD [(["a"], (1 : ℚ) / 2), (["b"], (1 : ℚ) / 2), (["a", "b"], (1 : ℚ) / 2)]
      (unionIS ["a"] ["b"]) 0 = (1 : ℚ) / 2 ∧
    (1 : ℚ) = ((1 : ℚ) / 2) / lookupD [(["a"], (1 : ℚ) / 2), (["b"], (1 : ℚ) / 2),
      (["a", "b"], (1 : ℚ) / 2)] ["a"] 0 ∧
    (2 : ℚ) = 1 / lookupD [(["a"], (1 : ℚ) / 2), (["b"], (1 : ℚ) / 2),
      (["a", "b"], (1 : ℚ) / 2)] ["b"] 0 ∧
    (2 : ℚ) = ((1 : ℚ) / 2) / (lookupD [(["a"], (1 : ℚ) / 2), (["b"], (1 : ℚ) / 2),
      (["a", "b"], (1 : ℚ) / 2)] ["a"] 0 * lookupD [(["a"], (1 : ℚ) / 2),
      (["b"], (1 : ℚ) / 2), (["a", "b"], (1 : ℚ) / 2)] ["b"] 0) :=
  C7_rule_identities
    [(["a"], (1 : ℚ) / 2), (["b"], (1 : ℚ) / 2), (["a", "b"], (1 : ℚ) / 2)] [] 0 0
    false (by with_unfolding_all decide) (by decide)
    ⟨["a"], ["b"], 1 / 2, 1, 2⟩ (by with_unfolding_all decide)

/-- C9: splits with missing or zero subset support are skipped, the rest
survive.  Part 1: no emitted rule has a zero/absent antecedent or consequent
support (for canonical-keyed mappings, as the pipeline produces).  Part 2:
the skip is local — every other antecedent/consequent split of any itemset
in the mapping whose two lookups are non-zero and whose confidence and lift
clear the thresholds yields its rule in the output, so one bad split never
aborts the run. -/
theorem C9_zero_support_skipped (freq : PyDict ItemSet ℚ) (ab : PyDict ItemSet ℕ)
    (mc ml : ℚ) (b : Bool) (hcanon : ∀ p ∈ freq, IsCanon p.1) :
    (∀ r ∈ generateRules freq ab mc ml b,
      lookupD freq r.ant 0 ≠ 0 ∧ lookupD freq r.con 0 ≠ 0) ∧
    (∀ p ∈ freq, ∀ A : List Item, List.Sublist A p.1 → 1 ≤ A.length →
      A.length < p.1.length → (b = true → p.1.length = 2) →
      lookupD freq A 0 ≠ 0 →
      lookupD freq (p.1.filter (fun x => decide (x ∉ A))) 0 ≠ 0 →
      mc ≤ p.2 / lookupD freq A 0 →
      ml ≤ p.2 / (lookupD freq A 0 *
        lookupD freq (p.1.filter (fun x => decide (x ∉ A))) 0) →
      (⟨sortStr A, sortStr (p.1.filter (fun x => decide (x ∉ A))), p.2,
        p.2 / lookupD freq A 0,
        p.2 / (lookupD freq A 0 *
          lookupD freq (p.1.filter (fun x => decide (x ∉ A))) 0)⟩ : RuleT) ∈
        generateRules freq ab mc ml b) := by
  constructor
  · intro r h
    rw [generateRules_eq_flatMap] at h
    rcases List.mem_flatMap.1 h with ⟨p, hpmem, hp⟩
    rcases mem_rulesOfEntry_elim hp with ⟨-, -, A, hsub, -, -, hr⟩
    rcases mem_splitRule_elim hr with ⟨h1, h2, -, -, rfl⟩
    have hc : IsCanon p.1 := hcanon p hpmem
    have hA : sortStr A = A := (hc.sublist hsub).sortStr_eq
    have hB : sortStr (p.1.filter (fun x => decide (x ∉ A))) =
        p.1.filter (fun x => decide (x ∉ A)) :=
      (hc.sublist (List.filter_sublist p.1)).sortStr_eq
    simp only [hA, hB]
    exact ⟨h1, h2⟩
  · intro p hpmem A hsub h1 h2 hb hx hy hconf hlift
    rw [generateRules_eq_flatMap]
    exact List.mem_flatMap.2 ⟨p, hpmem,
      mem_rulesOfEntry_intro hsub h1 h2 hb (mem_splitRule_intro hx hy hconf hlift)⟩

/-- Witness for C9: in the mapping `{{"a"}: 1/2, {"b"}: 1/2, {"c"}: 1/2,
{"a","b"}: 1/2, {"a","b","c"}: 1/2}` the split `{"a"} → {"b","c"}` of the
triple has `support({"b","c"})` absent (`get` returns `0`) and is skipped,
while the split `{"c"} → {"a","b"}` of the same itemset is still emitted. -/
theorem C9_witness :
    ((⟨["c"], ["a", "b"], 1 / 2, 1, 2⟩ : RuleT) ∈
      generateRules [(["a"], (1 : ℚ) / 2), (["b"], (1 : ℚ) / 2),
        (["c"], (1 : ℚ) / 2), (["a", "b"], (1 : ℚ) / 2),
        (["a", "b", "c"], (1 : ℚ) / 2)] [] 0 0 false) ∧
    lookupD [(["a"], (1 : ℚ) / 2), (["b"], (1 : ℚ) / 2), (["c"], (1 : ℚ) / 2),
      (["a", "b"], (1 : ℚ) / 2), (["a", "b", "c"], (1 : ℚ) / 2)] ["c"] 0 ≠ 0 ∧
    lookupD [(["a"], (1 : ℚ) / 2), (["b"], (1 : ℚ) / 2), (["c"], (1 : ℚ) / 2),
      (["a", "b"], (1 : ℚ) / 2), (["a", "b", "c"], (1 : ℚ) / 2)] ["a", "b"] 0 ≠ 0 ∧
    lookupD [(["a"], (1 : ℚ) / 2), (["b"], (1 : ℚ) / 2), (["c"], (1 : ℚ) / 2),
      (["a", "b"], (1 : ℚ) / 2), (["a", "b", "c"], (1 : ℚ) / 2)] ["b", "c"] 0 = 0 := by
  have hcanon : ∀ p ∈ [(["a"], (1 : ℚ) / 2), (["b"], (1 : ℚ) / 2),
      (["c"], (1 : ℚ) / 2), (["a", "b"], (1 : ℚ) / 2),
      (["a", "b", "c"], (1 : ℚ) / 2)], IsCanon p.1 := by
    with_unfolding_all decide
  have hmem := (C9_zero_support_skipped _ [] 0 0 false hcanon).2
    (["a", "b", "c"], (1 : ℚ) / 2) (by with_unfolding_all decide) ["c"]
    (by decide) (by decide) (by decide) (by simp)
    (by with_unfolding_all decide) (by with_unfolding_all decide)
    (by with_unfolding_all decide) (by with_unfolding_all decide)
  refine ⟨?_, by with_unfolding_all decide, by with_unfolding_all decide,
    by with_unfolding_all decide⟩
  have he : (⟨["c"], ["a", "b"], 1 / 2, 1, 2⟩ : RuleT) =
      ⟨sortStr ["c"],
        sortStr ((["a", "b", "c"], (1 : ℚ) / 2).1.filter
          (fun x => decide (x ∉ (["c"] : List Item)))), (1 : ℚ) / 2,
        (1 : ℚ) / 2 / lookupD [(["a"], (1 : ℚ) / 2), (["b"], (1 : ℚ) / 2),
          (["c"], (1 : ℚ) / 2), (["a", "b"], (1 : ℚ) / 2),
          (["a", "b", "c"], (1 : ℚ) / 2)] ["c"] 0,
        (1 : ℚ) / 2 / (lookupD [(["a"], (1 : ℚ) / 2), (["b"], (1 : ℚ) / 2),
          (["c"], (1 : ℚ) / 2), (["a", "b"], (1 : ℚ) / 2),
          (["a", "b", "c"], (1 : ℚ) / 2)] ["c"] 0 *
          lookupD [(["a"], (1 : ℚ) / 2), (["b"], (1 : ℚ) / 2),
          (["c"], (1 : ℚ) / 2), (["a", "b"], (1 : ℚ) / 2),
          (["a", "b", "c"], (1 : ℚ) / 2)]
          ((["a", "b", "c"], (1 : ℚ) / 2).1.filter
            (fun x => decide (x ∉ (["c"] : List Item)))) 0)⟩ := by
    with_unfolding_all decide
  rw [he]
  exact hmem

/-! ## The rule filter -/

theorem rulesOfEntry_rule_lengths {freq : PyDict ItemSet ℚ} {mc ml : ℚ}
    {b : Bool} {p : ItemSet × ℚ} {r : RuleT} (hc : IsCanon p.1)
    (h : r ∈ rulesOfEntry freq mc ml b p) :
    r.ant.length + r.con.length = p.1.length := by
  rcases mem_rulesOfEntry_elim h with ⟨-, -, A, hsub, h1len, hlt, hr⟩
  rcases mem_splitRule_elim hr with ⟨-, -, -, -, rfl⟩
  simp only
  rw [sortStr_length, sortStr_length, length_filter_not_mem hsub hc.nodup]
  have := hsub.length_le
  omega

theorem filter_flatMap {α β : Type _} (l : List α) (g : α → List β)
    (q : β → Bool) :
    (l.flatMap g).filter q = l.flatMap (fun a => (g a).filter q) := by
  induction l with
  | nil => rfl
  | cons a l ih => simp [List.flatMap_cons, List.filter_append, ih]

theorem rulesOfEntry_short {freq : PyDict ItemSet ℚ} {mc ml : ℚ} {b : Bool}
    {p : ItemSet × ℚ} (h : p.1.length < 2) : rulesOfEntry freq mc ml b p = [] := by
  unfold rulesOfEntry
  rw [if_pos h]

/-- C8: the Main configuration of `rules_from_freq` returns exactly the
generated rules whose underlying itemset has exactly two items (equivalently
`|antecedent| + |consequent| = 2`) and whose support lies in
`[min_support, 1]`; the Potential configuration returns exactly the
generated rules (itemsets of any size ≥ 2) whose support lies in
`[longtail_min_support, longtail_max_support]`; both configurations pass
the same `min_confidence` and `min_lift` to the generator. -/
theorem C8_rule_filter_bands (freq : PyDict ItemSet ℚ) (ab : PyDict ItemSet ℕ)
    (prm : AprioriParams) (hcanon : ∀ p ∈ freq, IsCanon p.1) :
    rulesFromFreq freq ab prm false =
      (generateRules freq ab prm.min_confidence prm.min_lift false).filter
        (fun r => decide (r.ant.length + r.con.length = 2 ∧
          prm.min_support ≤ r.sup ∧ r.sup ≤ 1)) ∧
    rulesFromFreq freq ab prm true =
      (generateRules freq ab prm.min_confidence prm.min_lift false).filter
        (fun r => decide (prm.longtail_min_support ≤ r.sup ∧
          r.sup ≤ prm.longtail_max_support)) ∧
    (∀ r ∈ rulesFromFreq freq ab prm true, 2 ≤ r.ant.length + r.con.length) := by
  have hlen : ∀ (b : Bool) (r : RuleT), r ∈ generateRules freq ab
      prm.min_confidence prm.min_lift b → ∃ p ∈ freq,
      r.ant.length + r.con.length = p.1.length ∧ 2 ≤ p.1.length := by
    intro b r h
    rw [generateRules_eq_flatMap] at h
    rcases List.mem_flatMap.1 h with ⟨p, hpmem, hp⟩
    rcases mem_rulesOfEntry_elim hp with ⟨h2, -, -⟩
    exact ⟨p, hpmem, rulesOfEntry_rule_lengths (hcanon p hpmem) hp, h2⟩
  refine ⟨?_, by rfl, ?_⟩
  · have hstart : rulesFromFreq freq ab prm false =
        (generateRules freq ab prm.min_confidence prm.min_lift true).filter
          (fun r => decide (prm.min_support ≤ r.sup ∧ r.sup ≤ 1)) := rfl
    rw [hstart, generateRules_eq_flatMap, generateRules_eq_flatMap,
      filter_flatMap, filter_flatMap]
    apply List.flatMap_congr
    intro p hp
    by_cases hshort : p.1.length < 2
    · rw [rulesOfEntry_short hshort, rulesOfEntry_short hshort]
      rfl
    · by_cases heq : p.1.length = 2
      · have hsame : rulesOfEntry freq prm.min_confidence prm.min_lift true p =
            rulesOfEntry freq prm.min_confidence prm.min_lift false p := by
          unfold rulesOfEntry
          rw [if_neg hshort, if_neg hshort,
            if_neg (by rintro ⟨-, hne⟩; exact hne heq),
            if_neg (by rintro ⟨hf, -⟩; exact Bool.false_ne_true hf)]
        rw [hsame]
        apply List.filter_congr
        intro r hr
        have hl : r.ant.length + r.con.length = p.1.length :=
          rulesOfEntry_rule_lengths (hcanon p hp) hr
        show decide (prm.min_support ≤ r.sup ∧ r.sup ≤ 1) =
          decide (r.ant.length + r.con.length = 2 ∧
            prm.min_support ≤ r.sup ∧ r.sup ≤ 1)
        simp [hl, heq]
      · have htrue : rulesOfEntry freq prm.min_confidence prm.min_lift true p =
            [] := by
          unfold rulesOfEntry
          rw [if_neg hshort, if_pos ⟨rfl, heq⟩]
        rw [htrue, List.filter_nil]
        symm
        rw [List.filter_eq_nil_iff]
        intro r hr
        have hl : r.ant.length + r.con.length = p.1.length :=
          rulesOfEntry_rule_lengths (hcanon p hp) hr
        show ¬ decide (r.ant.length + r.con.length = 2 ∧
          prm.min_support ≤ r.sup ∧ r.sup ≤ 1) = true
        simp [hl, heq]
  · intro r hr
    have hr' : r ∈ generateRules freq ab prm.min_confidence prm.min_lift false := by
      have hstart : rulesFromFreq freq ab prm true =
          (generateRules freq ab prm.min_confidence prm.min_lift false).filter
            (fun r => decide (prm.longtail_min_support ≤ r.sup ∧
              r.sup ≤ prm.longtail_max_support)) := rfl
      rw [hstart] at hr
      exact List.mem_of_mem_filter hr
    rcases hlen false r hr' with ⟨p, -, hl, h2⟩
    omega

/-- Witness for C8: the mapping `{{"a"}: 1/2, {"b"}: 1/2, {"a","b"}: 1/2}`
with params `(min_support 1/100, min_confidence 0, min_lift 0,
longtail band [1/100, 1])`: the Main equation holds, and the Potential
output contains `{"a"} → {"b"}`, a rule over two items. -/
theorem C8_witness :
    (rulesFromFreq [(["a"], (1 : ℚ) / 2), (["b"], (1 : ℚ) / 2),
        (["a", "b"], (1 : ℚ) / 2)] [] ⟨1 / 100, 0, 0, 1 / 100, 1⟩ false =
      (generateRules [(["a"], (1 : ℚ) / 2), (["b"], (1 : ℚ) / 2),
        (["a", "b"], (1 : ℚ) / 2)] []
        (⟨1 / 100, 0, 0, 1 / 100, 1⟩ : AprioriParams).min_confidence
        (⟨1 / 100, 0, 0, 1 / 100, 1⟩ : AprioriParams).min_lift false).filter
        (fun r => decide (r.ant.length + r.con.length = 2 ∧
          (⟨1 / 100, 0, 0, 1 / 100, 1⟩ : AprioriParams).min_support ≤ r.sup ∧
          r.sup ≤ 1))) ∧
    2 ≤ (⟨["a"], ["b"], (1 : ℚ) / 2, 1, 2⟩ : RuleT).ant.length +
      (⟨["a"], ["b"], (1 : ℚ) / 2, 1, 2⟩ : RuleT).con.length :=
  ⟨(C8_rule_filter_bands [(["a"], (1 : ℚ) / 2), (["b"], (1 : ℚ) / 2),
      (["a", "b"], (1 : ℚ) / 2)] [] ⟨1 / 100, 0, 0, 1 / 100, 1⟩
      (by with_unfolding_all decide)).1,
    (C8_rule_filter_bands [(["a"], (1 : ℚ) / 2), (["b"], (1 : ℚ) / 2),
      (["a", "b"], (1 : ℚ) / 2)] [] ⟨1 / 100, 0, 0, 1 / 100, 1⟩
      (by with_unfolding_all decide)).2.2
      ⟨["a"], ["b"], (1 : ℚ) / 2, 1, 2⟩ (by with_unfolding_all decide)⟩

/-! ## Tier builder lemmas -/

theorem mem_bump_elim {κ α : Type} [DecidableEq κ] [Add α]
    {d : PyDict κ α} {k : κ} {v : α} {p : κ × α}
    (h : p ∈ bump d k v) : p ∈ d ∨ p.1 = k := by
  induction d with
  | nil =>
    rw [bump] at h
    rcases List.mem_singleton.1 h with rfl
    exact Or.inr rfl
  | cons q rest ih =>
    rw [bump] at h
    by_cases hqk : q.1 = k
    · rw [if_pos hqk] at h
      rcases List.mem_cons.1 h with rfl | h
      · exact Or.inr hqk
      · exact Or.inl (List.mem_cons_of_mem _ h)
    · rw [if_neg hqk] at h
      rcases List.mem_cons.1 h with rfl | h
      · exact Or.inl (List.mem_cons_self _ _)
      · rcases ih h with h | h
        · exact Or.inl (List.mem_cons_of_mem _ h)
        · exact Or.inr h

/-- Every key of the Tier-2 partner-score dictionary avoids Tier 1: only
items outside `tier1_items` are ever bumped. -/
theorem partnerScores_avoids_tier1 {rules : List RuleT} {t1 : List Item}
    {p : Item × ℚ} (h : p ∈ partnerScores rules t1) : p.1 ∉ t1 := by
  unfold partnerScores at h
  refine foldl_inv (P := fun d : PyDict Item ℚ => ∀ q ∈ d, q.1 ∉ t1) rules []
    ?_ (by simp) p h
  intro d r _ hd
  by_cases hany : (ruleItems r).any (fun i => decide (i ∈ t1))
  · rw [if_pos hany]
    refine foldl_inv (P := fun d : PyDict Item ℚ => ∀ q ∈ d, q.1 ∉ t1)
      ((ruleItems r).filter (fun i => decide (i ∉ t1))) d ?_ hd
    intro d' i hi hd' q hq
    rcases mem_bump_elim hq with hq | hq
    · exact hd' q hq
    · rw [hq]
      have := (List.mem_filter.1 hi).2
      simpa using this
  · rw [if_neg hany]
    exact hd

theorem mem_takeTop {N : ℕ} {d : PyDict Item ℚ} {x : Item}
    (h : x ∈ takeTop N d) : ∃ q, (x, q) ∈ d := by
  unfold takeTop at h
  rcases List.mem_map.1 h with ⟨p, hp, he⟩
  have hp' : p ∈ List.insertionSort (fun p q : Item × ℚ => q.2 ≤ p.2) d :=
    (List.take_sublist _ _).subset hp
  have hpd : p ∈ d := (List.perm_insertionSort _ d).mem_iff.1 hp'
  refine ⟨p.2, ?_⟩
  have : p = (x, p.2) := by
    rcases p with ⟨a, b⟩
    simp only at he
    simp [he]
  rwa [this] at hpd

/-- C2: for any rule lists and frequent-itemset maps whatsoever, the five
tier lists returned by `build_tiers` are pairwise disjoint: Tier 2 only
scores items outside Tier 1, and each later tier filters out every item
already claimed by the earlier tiers. -/
theorem C2_tiers_pairwise_disjoint (rm rp : List RuleT)
    (fm fp : PyDict ItemSet ℚ) (prm : AprioriParams) :
    List.Disjoint (buildTiers rm rp fm fp prm).tier1 (buildTiers rm rp fm fp prm).tier2 ∧
    List.Disjoint (buildTiers rm rp fm fp prm).tier1 (buildTiers rm rp fm fp prm).tier3 ∧
    List.Disjoint (buildTiers rm rp fm fp prm).tier1 (buildTiers rm rp fm fp prm).tier4 ∧
    List.Disjoint (buildTiers rm rp fm fp prm).tier1 (buildTiers rm rp fm fp prm).tier5 ∧
    List.Disjoint (buildTiers rm rp fm fp prm).tier2 (buildTiers rm rp fm fp prm).tier3 ∧
    List.Disjoint (buildTiers rm rp fm fp prm).tier2 (buildTiers rm rp fm fp prm).tier4 ∧
    List.Disjoint (buildTiers rm rp fm fp prm).tier2 (buildTiers rm rp fm fp prm).tier5 ∧
    List.Disjoint (buildTiers rm rp fm fp prm).tier3 (buildTiers rm rp fm fp prm).tier4 ∧
    List.Disjoint (buildTiers rm rp fm fp prm).tier3 (buildTiers rm rp fm fp prm).tier5 ∧
    List.Disjoint (buildTiers rm rp fm fp prm).tier4 (buildTiers rm rp fm fp prm).tier5 := by
  unfold buildTiers
  dsimp only
  set rules_all := rm ++ rp with hra
  set scores_all := computeItemScores rules_all with hsa
  set t1 := takeTop 3 scores_all with ht1
  set t2 := takeTop 5 (partnerScores rules_all t1) with ht2
  set t3 := takeTop 5 (scores_all.filter (fun p => decide (p.1 ∉ t1 ++ t2))) with ht3
  set t4 := takeTop 5 ((computeItemScores rp).filter
    (fun p => decide (p.1 ∉ (t1 ++ t2) ++ t3))) with ht4
  set t5 := takeTop 5 ((consequentScores rules_all).filter
    (fun p => decide (p.1 ∉ ((t1 ++ t2) ++ t3) ++ t4))) with ht5
  have h2 : ∀ x ∈ t2, x ∉ t1 := by
    intro x hx
    rcases mem_takeTop hx with ⟨q, hq⟩
    exact partnerScores_avoids_tier1 hq
  have h3 : ∀ x ∈ t3, x ∉ t1 ++ t2 := by
    intro x hx
    rcases mem_takeTop hx with ⟨q, hq⟩
    have := (List.mem_filter.1 hq).2
    simpa using this
  have h4 : ∀ x ∈ t4, x ∉ (t1 ++ t2) ++ t3 := by
    intro x hx
    rcases mem_takeTop hx with ⟨q, hq⟩
    have := (List.mem_filter.1 hq).2
    simpa using this
  have h5 : ∀ x ∈ t5, x ∉ ((t1 ++ t2) ++ t3) ++ t4 := by
    intro x hx
    rcases mem_takeTop hx with ⟨q, hq⟩
    have := (List.mem_filter.1 hq).2
    simpa using this
  refine ⟨?_, ?_, ?_, ?_, ?_, ?_, ?_, ?_, ?_, ?_⟩ <;> intro a ha hb
  · exact h2 a hb ha
  · exact h3 a hb (List.mem_append_left _ ha)
  · exact h4 a hb (List.mem_append_left _ (List.mem_append_left _ ha))
  · exact h5 a hb
      (List.mem_append_left _ (List.mem_append_left _ (List.mem_append_left _ ha)))
  · exact h3 a hb (List.mem_append_right _ ha)
  · exact h4 a hb (List.mem_append_left _ (List.mem_append_right _ ha))
  · exact h5 a hb
      (List.mem_append_left _ (List.mem_append_left _ (List.mem_append_right _ ha)))
  · exact h4 a hb (List.mem_append_right _ ha)
  · exact h5 a hb (List.mem_append_left _ (List.mem_append_right _ ha))
  · exact h5 a hb (List.mem_append_right _ ha)

/-! ## Sort order within tiers -/

instance : IsTotal (Item × ℚ) (fun p q => q.2 ≤ p.2) :=
  ⟨fun a b => le_total b.2 a.2⟩

instance : IsTrans (Item × ℚ) (fun p q => q.2 ≤ p.2) :=
  ⟨fun _ _ _ h1 h2 => le_trans h2 h1⟩

theorem nodupKeys_computeItemScores (rules : List RuleT) :
    NodupKeys (computeItemScores rules) := by
  unfold computeItemScores
  refine foldl_inv (P := NodupKeys) rules [] ?_ (by simp [NodupKeys, keys])
  intro d r _ hd
  refine foldl_inv (P := NodupKeys) (ruleItems r) d ?_ hd
  intro d' i _ hd'
  exact nodupKeys_bump hd'

theorem nodupKeys_partnerScores (rules : List RuleT) (t1 : List Item) :
    NodupKeys (partnerScores rules t1) := by
  unfold partnerScores
  refine foldl_inv (P := NodupKeys) rules [] ?_ (by simp [NodupKeys, keys])
  intro d r _ hd
  by_cases hany : (ruleItems r).any (fun i => decide (i ∈ t1))
  · rw [if_pos hany]
    refine foldl_inv (P := NodupKeys)
      ((ruleItems r).filter (fun i => decide (i ∉ t1))) d ?_ hd
    intro d' i _ hd'
    exact nodupKeys_bump hd'
  · rw [if_neg hany]
    exact hd

theorem nodupKeys_consequentScores (rules : List RuleT) :
    NodupKeys (consequentScores rules) := by
  unfold consequentScores
  refine foldl_inv (P := NodupKeys) rules [] ?_ (by simp [NodupKeys, keys])
  intro d r _ hd
  refine foldl_inv (P := NodupKeys) r.con d ?_ hd
  intro d' i _ hd'
  exact nodupKeys_bump hd'

/-- The items selected by `takeTop` are in non-increasing order of their
score in the dictionary they were drawn from.  (This is all that survives
of the sort: ties keep the dictionary's insertion order, because the
`key=lambda x: x[1]` sort is stable and compares scores only.) -/
theorem takeTop_pairwise_descending (N : ℕ) {d : PyDict Item ℚ}
    (hnd : NodupKeys d) :
    (takeTop N d).Pairwise (fun a b => lookupD d b 0 ≤ lookupD d a 0) := by
  unfold takeTop
  have hsorted : List.Sorted (fun p q : Item × ℚ => q.2 ≤ p.2)
      (List.insertionSort (fun p q : Item × ℚ => q.2 ≤ p.2) d) :=
    List.sorted_insertionSort _ d
  have hpair : (List.take N (List.insertionSort
      (fun p q : Item × ℚ => q.2 ≤ p.2) d)).Pairwise
      (fun p q : Item × ℚ => q.2 ≤ p.2) :=
    List.Pairwise.sublist (List.take_sublist _ _) hsorted
  have hmem : ∀ p ∈ List.take N (List.insertionSort
      (fun p q : Item × ℚ => q.2 ≤ p.2) d), p ∈ d := fun p hp =>
    (List.perm_insertionSort _ d).mem_iff.1 ((List.take_sublist _ _).subset hp)
  have hlk : ∀ p ∈ List.take N (List.insertionSort
      (fun p q : Item × ℚ => q.2 ≤ p.2) d), lookupD d p.1 0 = p.2 := by
    intro p hp
    unfold lookupD
    have hpd : (p.1, p.2) ∈ d := by
      rw [Prod.mk.eta]
      exact hmem p hp
    rw [alookup_eq_some_of_mem hnd hpd]
    rfl
  rw [List.pairwise_map]
  refine List.Pairwise.imp_of_mem ?_ hpair
  intro a b ha hb hle
  rw [hlk a ha, hlk b hb]
  exact hle

/-- In a duplicate-free list a pair can be a sublist in only one order. -/
theorem sublist_pair_antisymm {α : Type _} {a b : α} {l : List α}
    (hnd : l.Nodup) (hab : List.Sublist [a, b] l) (hba : List.Sublist [b, a] l) :
    a = b := by
  induction l with
  | nil => simp at hab
  | cons x xs ih =>
    rw [List.nodup_cons] at hnd
    cases hab with
    | cons _ h =>
      cases hba with
      | cons _ h' => exact ih hnd.2 h h'
      | cons₂ _ h' =>
        have hbxs : b ∈ xs := h.subset (by simp)
        exact absurd hbxs hnd.1
    | cons₂ _ h =>
      cases hba with
      | cons _ h' =>
        have haxs : a ∈ xs := h'.subset (by simp)
        exact absurd haxs hnd.1
      | cons₂ _ h' => rfl

/-- Two distinct members of a list occur in one of the two orders. -/
theorem mem_order_dichotomy {α : Type _} {a b : α} {l : List α}
    (ha : a ∈ l) (hb : b ∈ l) (hne : a ≠ b) :
    List.Sublist [a, b] l ∨ List.Sublist [b, a] l := by
  induction l with
  | nil => simp at ha
  | cons x xs ih =>
    rcases List.mem_cons.1 ha with rfl | ha'
    · have hbxs : b ∈ xs := by
        rcases List.mem_cons.1 hb with rfl | h
        · exact absurd rfl hne
        · exact h
      exact Or.inl (List.Sublist.cons₂ _ (List.singleton_sublist.2 hbxs))
    · rcases List.mem_cons.1 hb with rfl | hb'
      · exact Or.inr (List.Sublist.cons₂ _ (List.singleton_sublist.2 ha'))
      · rcases ih ha' hb' with h | h
        · exact Or.inl (h.cons _)
        · exact Or.inr (h.cons _)

/-- Stability of the tier sort: whenever two entries of the score
dictionary carry the same score, their order in the sorted list is their
order in the dictionary (CPython's `sorted` is stable and the key function
compares scores only). -/
theorem insertionSort_stable_pairs {d : PyDict Item ℚ} (hnd : NodupKeys d) :
    (List.insertionSort (fun p q : Item × ℚ => q.2 ≤ p.2) d).Pairwise
      (fun p q => p.2 = q.2 → List.Sublist [p.1, q.1] (keys d)) := by
  have hdnodup : d.Nodup := hnd.of_map
  have hsnodup : (List.insertionSort (fun p q : Item × ℚ => q.2 ≤ p.2) d).Nodup :=
    (List.perm_insertionSort _ d).nodup_iff.2 hdnodup
  rw [List.pairwise_iff_forall_sublist]
  intro p q hsub heq
  have hne : p ≠ q := by
    rintro rfl
    exact (List.pairwise_iff_forall_sublist.1 hsnodup hsub) rfl
  have hpmem : p ∈ d :=
    (List.perm_insertionSort _ d).mem_iff.1 (hsub.subset (by simp))
  have hqmem : q ∈ d :=
    (List.perm_insertionSort _ d).mem_iff.1 (hsub.subset (by simp))
  rcases mem_order_dichotomy hpmem hqmem hne with h | h
  · simpa [keys] using h.map Prod.fst
  · exfalso
    have hqp : List.Sublist [q, p]
        (List.insertionSort (fun p q : Item × ℚ => q.2 ≤ p.2) d) :=
      List.pair_sublist_insertionSort (le_of_eq heq) h
    exact hne (sublist_pair_antisymm hsnodup hsub hqp)

/-- `takeTop` is a stable descending selection: along the returned item
list scores never increase, and any two items with equal scores appear in
the same relative order as their keys do in the score dictionary — the
dictionary's insertion order. -/
theorem takeTop_pairwise_stable (N : ℕ) {d : PyDict Item ℚ}
    (hnd : NodupKeys d) :
    (takeTop N d).Pairwise (fun a b =>
      lookupD d b 0 ≤ lookupD d a 0 ∧
      (lookupD d a 0 = lookupD d b 0 → List.Sublist [a, b] (keys d))) := by
  unfold takeTop
  have hcomb : (List.insertionSort (fun p q : Item × ℚ => q.2 ≤ p.2) d).Pairwise
      (fun p q : Item × ℚ => q.2 ≤ p.2 ∧
        (p.2 = q.2 → List.Sublist [p.1, q.1] (keys d))) :=
    (List.sorted_insertionSort _ d).and (insertionSort_stable_pairs hnd)
  have hpair := List.Pairwise.sublist (List.take_sublist N _) hcomb
  have hmem : ∀ p ∈ List.take N (List.insertionSort
      (fun p q : Item × ℚ => q.2 ≤ p.2) d), p ∈ d := fun p hp =>
    (List.perm_insertionSort _ d).mem_iff.1 ((List.take_sublist _ _).subset hp)
  have hlk : ∀ p ∈ List.take N (List.insertionSort
      (fun p q : Item × ℚ => q.2 ≤ p.2) d), lookupD d p.1 0 = p.2 := by
    intro p hp
    unfold lookupD
    have hpd : (p.1, p.2) ∈ d := by
      rw [Prod.mk.eta]
      exact hmem p hp
    rw [alookup_eq_some_of_mem hnd hpd]
    rfl
  rw [List.pairwise_map]
  refine List.Pairwise.imp_of_mem ?_ hpair
  intro a b ha hb hr
  rw [hlk a ha, hlk b hb]
  exact hr

/-- C3, counterexample to the claim as stated: with the two input rules
`({"b"}, {"b"}, 1, 1, 1)` and `({"a"}, {"a"}, 1, 1, 1)` the items `"a"` and
`"b"` have the same score `1`, yet Tier 1 is `["b", "a"]` — ties are broken
by the score dictionary's insertion order (the order items are first touched
by a rule), not by the items' natural string ordering, which would give
`["a", "b"]`. -/
theorem C3_counterexample :
    computeItemScores [⟨["b"], ["b"], 1, 1, 1⟩, ⟨["a"], ["a"], 1, 1, 1⟩] =
      [("b", 1), ("a", 1)] ∧
    ("a" : Item) < "b" ∧
    (buildTiers [⟨["b"], ["b"], 1, 1, 1⟩, ⟨["a"], ["a"], 1, 1, 1⟩] [] [] []
      ⟨1 / 100, 3 / 10, 3 / 2, 1 / 500, 1 / 100⟩).tier1 = ["b", "a"] :=
  ⟨by with_unfolding_all decide, by with_unfolding_all decide,
    by with_unfolding_all decide⟩

/-- C3 (amended): within every tier produced by `build_tiers`, items are
ordered by non-increasing score with respect to that tier's score
dictionary, and any two items with equal score appear in the same relative
order as their keys do in that dictionary — the dictionary's insertion
order, i.e. the order in which the rule scan first touches the items — not
the items' natural string ordering.  The output order is therefore a
deterministic function of the ordered score dictionary, not of its contents
as an unordered map. -/
theorem C3_tiers_sorted_by_score (rm rp : List RuleT)
    (fm fp : PyDict ItemSet ℚ) (prm : AprioriParams) :
    (buildTiers rm rp fm fp prm).tier1.Pairwise (fun a b =>
      lookupD (computeItemScores (rm ++ rp)) b 0 ≤
        lookupD (computeItemScores (rm ++ rp)) a 0 ∧
      (lookupD (computeItemScores (rm ++ rp)) a 0 =
        lookupD (computeItemScores (rm ++ rp)) b 0 →
        List.Sublist [a, b] (keys (computeItemScores (rm ++ rp))))) ∧
    (buildTiers rm rp fm fp prm).tier2.Pairwise (fun a b =>
      lookupD (partnerScores (rm ++ rp) (buildTiers rm rp fm fp prm).tier1) b 0 ≤
        lookupD (partnerScores (rm ++ rp) (buildTiers rm rp fm fp prm).tier1) a 0 ∧
      (lookupD (partnerScores (rm ++ rp) (buildTiers rm rp fm fp prm).tier1) a 0 =
        lookupD (partnerScores (rm ++ rp) (buildTiers rm rp fm fp prm).tier1) b 0 →
        List.Sublist [a, b]
          (keys (partnerScores (rm ++ rp) (buildTiers rm rp fm fp prm).tier1)))) ∧
    (buildTiers rm rp fm fp prm).tier3.Pairwise (fun a b =>
      lookupD ((computeItemScores (rm ++ rp)).filter (fun p => decide (p.1 ∉
        (buildTiers rm rp fm fp prm).tier1 ++ (buildTiers rm rp fm fp prm).tier2))) b 0 ≤
        lookupD ((computeItemScores (rm ++ rp)).filter (fun p => decide (p.1 ∉
          (buildTiers rm rp fm fp prm).tier1 ++ (buildTiers rm rp fm fp prm).tier2))) a 0 ∧
      (lookupD ((computeItemScores (rm ++ rp)).filter (fun p => decide (p.1 ∉
          (buildTiers rm rp fm fp prm).tier1 ++ (buildTiers rm rp fm fp prm).tier2))) a 0 =
        lookupD ((computeItemScores (rm ++ rp)).filter (fun p => decide (p.1 ∉
          (buildTiers rm rp fm fp prm).tier1 ++ (buildTiers rm rp fm fp prm).tier2))) b 0 →
        List.Sublist [a, b]
          (keys ((computeItemScores (rm ++ rp)).filter (fun p => decide (p.1 ∉
            (buildTiers rm rp fm fp prm).tier1 ++ (buildTiers rm rp fm fp prm).tier2)))))) ∧
    (buildTiers rm rp fm fp prm).tier4.Pairwise (fun a b =>
      lookupD ((computeItemScores rp).filter (fun p => decide (p.1 ∉
        ((buildTiers rm rp fm fp prm).tier1 ++ (buildTiers rm rp fm fp prm).tier2) ++
        (buildTiers rm rp fm fp prm).tier3))) b 0 ≤
        lookupD ((computeItemScores rp).filter (fun p => decide (p.1 ∉
          ((buildTiers rm rp fm fp prm).tier1 ++ (buildTiers rm rp fm fp prm).tier2) ++
          (buildTiers rm rp fm fp prm).tier3))) a 0 ∧
      (lookupD ((computeItemScores rp).filter (fun p => decide (p.1 ∉
          ((buildTiers rm rp fm fp prm).tier1 ++ (buildTiers rm rp fm fp prm).tier2) ++
          (buildTiers rm rp fm fp prm).tier3))) a 0 =
        lookupD ((computeItemScores rp).filter (fun p => decide (p.1 ∉
          ((buildTiers rm rp fm fp prm).tier1 ++ (buildTiers rm rp fm fp prm).tier2) ++
          (buildTiers rm rp fm fp prm).tier3))) b 0 →
        List.Sublist [a, b]
          (keys ((computeItemScores rp).filter (fun p => decide (p.1 ∉
            ((buildTiers rm rp fm fp prm).tier1 ++ (buildTiers rm rp fm fp prm).tier2) ++
            (buildTiers rm rp fm fp prm).tier3)))))) ∧
    (buildTiers rm rp fm fp prm).tier5.Pairwise (fun a b =>
      lookupD ((consequentScores (rm ++ rp)).filter (fun p => decide (p.1 ∉
        (((buildTiers rm rp fm fp prm).tier1 ++ (buildTiers rm rp fm fp prm).tier2) ++
        (buildTiers rm rp fm fp prm).tier3) ++ (buildTiers rm rp fm fp prm).tier4))) b 0 ≤
        lookupD ((consequentScores (rm ++ rp)).filter (fun p => decide (p.1 ∉
          (((buildTiers rm rp fm fp prm).tier1 ++ (buildTiers rm rp fm fp prm).tier2) ++
          (buildTiers rm rp fm fp prm).tier3) ++ (buildTiers rm rp fm fp prm).tier4))) a 0 ∧
      (lookupD ((consequentScores (rm ++ rp)).filter (fun p => decide (p.1 ∉
          (((buildTiers rm rp fm fp prm).tier1 ++ (buildTiers rm rp fm fp prm).tier2) ++
          (buildTiers rm rp fm fp prm).tier3) ++ (buildTiers rm rp fm fp prm).tier4))) a 0 =
        lookupD ((consequentScores (rm ++ rp)).filter (fun p => decide (p.1 ∉
          (((buildTiers rm rp fm fp prm).tier1 ++ (buildTiers rm rp fm fp prm).tier2) ++
          (buildTiers rm rp fm fp prm).tier3) ++ (buildTiers rm rp fm fp prm).tier4))) b 0 →
        List.Sublist [a, b]
          (keys ((consequentScores (rm ++ rp)).filter (fun p => decide (p.1 ∉
            (((buildTiers rm rp fm fp prm).tier1 ++ (buildTiers rm rp fm fp prm).tier2) ++
            (buildTiers rm rp fm fp prm).tier3) ++ (buildTiers rm rp fm fp prm).tier4)))))) := by
  unfold buildTiers
  dsimp only
  exact ⟨takeTop_pairwise_stable 3 (nodupKeys_computeItemScores _),
    takeTop_pairwise_stable 5 (nodupKeys_partnerScores _ _),
    takeTop_pairwise_stable 5 (nodupKeys_filter _ (nodupKeys_computeItemScores _)),
    takeTop_pairwise_stable 5 (nodupKeys_filter _ (nodupKeys_computeItemScores _)),
    takeTop_pairwise_stable 5 (nodupKeys_filter _ (nodupKeys_consequentScores _))⟩

/-- C4: on the empty basket collection (`n = 0`), `apriori` returns empty
support and count mappings — no division `c / n` is ever evaluated since the
comprehension ranges over an empty count dictionary — and downstream both
rule lists (`generate_rules` for any thresholds, and both configurations of
`rules_from_freq`) are empty and all five tiers built from them are
empty. -/
theorem C4_empty_input (ms ms2 mc ml : ℚ) (b : Bool) (prm : AprioriParams) :
    apriori [] ms = ([], []) ∧
    generateRules (apriori [] ms).1 (apriori [] ms).2 mc ml b = [] ∧
    rulesFromFreq (apriori [] ms).1 (apriori [] ms).2 prm false = [] ∧
    rulesFromFreq (apriori [] ms2).1 (apriori [] ms2).2 prm true = [] ∧
    buildTiers (rulesFromFreq (apriori [] ms).1 (apriori [] ms).2 prm false)
      (rulesFromFreq (apriori [] ms2).1 (apriori [] ms2).2 prm true)
      (apriori [] ms).1 (apriori [] ms2).1 prm =
      ⟨[], [], [], [], []⟩ :=
  ⟨rfl, rfl, rfl, rfl, rfl⟩
